import Mathlib

/-!
Verification of the Go agent-SDK client library (subprocess transport,
line-JSON framer, query façade) against its natural-language specification.

The Go source is shallowly embedded:

* The stdout reader (`ReadMessages`) works over `List Char`; a character
  models one byte (every input considered here is ASCII, where Go's
  byte-length `len` and the character count agree).
* `json.Unmarshal` into `map[string]interface{}` is modelled by an
  executable streaming JSON-syntax validator (`jsonAccept`) together with
  the top-level-shape condition Go imposes for a map target (an object, or
  the literal `null`).
* Filesystem and subprocess effects (`os.ReadFile`, `os.Stat`,
  `os.CreateTemp`, running `claude -v`) are passed in as explicit
  function/flag parameters, so every embedded operation stays a pure,
  executable function of its inputs.
* Goroutine interleavings (concurrent `Write` calls) are modelled by an
  explicit step relation on a state that carries the mutex owner, both
  writers' program counters and the bytes written to stdin so far.
-/

set_option maxHeartbeats 1600000
set_option maxRecDepth 100000

namespace ClaudeSDK

/-! ## Character-level utilities (Go `strings` helpers) -/

/-- Whitespace as trimmed by Go's `strings.TrimSpace` (`unicode.IsSpace`),
restricted to the ASCII range that can actually appear here. -/
def isSpaceGo (c : Char) : Bool :=
  c = ' ' || c = '\t' || c = '\n' || c = '\x0b' || c = '\x0c' || c = '\r'

/-- Whitespace of the JSON grammar (RFC 8259): space, tab, LF, CR. -/
def isJsonWs (c : Char) : Bool :=
  c = ' ' || c = '\t' || c = '\n' || c = '\r'

/-- Model of Go `strings.TrimSpace` on a character list. -/
def trimGo (l : List Char) : List Char :=
  ((l.dropWhile isSpaceGo).reverse.dropWhile isSpaceGo).reverse

/-- Model of Go `strings.Split(s, "\n")` (splitting on single newlines). -/
def splitOnNewline : List Char → List (List Char)
  | [] => [[]]
  | c :: cs =>
    match splitOnNewline cs with
    | [] => [[]]
    | g :: gs => if c = '\n' then [] :: g :: gs else (c :: g) :: gs

/-! ## Streaming JSON validity machine

Models the success condition of `encoding/json.Unmarshal`: the machine
consumes one character at a time and accepts exactly the syntactically
well-formed JSON texts.  Processing is a `List.foldl`, so running the
machine over `s ++ t` factors through the state reached after `s`; the
framer proofs rest on that. -/

/-- Stack frame of the JSON machine: are we inside an object or an array? -/
inductive JFrame
  | obj
  | arr
deriving DecidableEq

/-- Mode of the JSON machine (what the next character may be). -/
inductive JMode
  /-- Expecting the start of a value (leading whitespace allowed). -/
  | value
  /-- Just after `{`: expecting a key string, `}`, or whitespace. -/
  | objStart
  /-- After `,` inside an object: expecting a key string or whitespace. -/
  | objKey
  /-- After a key string: expecting `:` or whitespace. -/
  | objColon
  /-- Just after `[`: expecting a value, `]`, or whitespace. -/
  | arrStart
  /-- A complete value has just ended at the current nesting level. -/
  | afterValue
  /-- Inside a string; `isKey` tells whether it is an object key. -/
  | strBody (isKey : Bool)
  /-- Inside a string, just after a backslash. -/
  | strEsc (isKey : Bool)
  /-- Inside a `\uXXXX` escape with `k` hex digits still expected. -/
  | strU (isKey : Bool) (k : Nat)
  /-- After a leading `-` of a number. -/
  | numNeg
  /-- After a leading `0`. -/
  | numZero
  /-- Inside the integer part (first digit nonzero). -/
  | numInt
  /-- Just after the decimal point. -/
  | numDot
  /-- Inside the fraction digits. -/
  | numFrac
  /-- Just after `e`/`E`. -/
  | numE
  /-- Just after the exponent sign. -/
  | numESign
  /-- Inside the exponent digits. -/
  | numExp
  /-- Inside a `true`/`false`/`null` literal; `rest` is still expected. -/
  | lit (rest : List Char)
  /-- The input is not valid JSON; absorbing. -/
  | reject
deriving DecidableEq

/-- State of the JSON machine: current mode and stack of open containers. -/
structure JState where
  mode : JMode
  stack : List JFrame
deriving DecidableEq

def isHexDigit (c : Char) : Bool :=
  c.isDigit || ('a' ≤ c && c ≤ 'f') || ('A' ≤ c && c ≤ 'F')

/-- A character that terminates a value at the current level: whitespace
stays in `afterValue`; `,`, `}`, `]` act according to the enclosing frame. -/
def stepAfter (stack : List JFrame) (c : Char) : JState :=
  if isJsonWs c then ⟨.afterValue, stack⟩
  else
    match stack with
    | [] => ⟨.reject, []⟩
    | .obj :: rest =>
      if c = ',' then ⟨.objKey, .obj :: rest⟩
      else if c = '}' then ⟨.afterValue, rest⟩
      else ⟨.reject, .obj :: rest⟩
    | .arr :: rest =>
      if c = ',' then ⟨.value, .arr :: rest⟩
      else if c = ']' then ⟨.afterValue, rest⟩
      else ⟨.reject, .arr :: rest⟩

/-- Dispatch on the first character of a value. -/
def startValue (stack : List JFrame) (c : Char) : JState :=
  if isJsonWs c then ⟨.value, stack⟩
  else if c = '{' then ⟨.objStart, .obj :: stack⟩
  else if c = '[' then ⟨.arrStart, .arr :: stack⟩
  else if c = '"' then ⟨.strBody false, stack⟩
  else if c = '-' then ⟨.numNeg, stack⟩
  else if c = '0' then ⟨.numZero, stack⟩
  else if c.isDigit then ⟨.numInt, stack⟩
  else if c = 't' then ⟨.lit ['r', 'u', 'e'], stack⟩
  else if c = 'f' then ⟨.lit ['a', 'l', 's', 'e'], stack⟩
  else if c = 'n' then ⟨.lit ['u', 'l', 'l'], stack⟩
  else ⟨.reject, stack⟩

/-- One step of the JSON machine. -/
def jsonStep (s : JState) (c : Char) : JState :=
  match s.mode with
  | .value => startValue s.stack c
  | .objStart =>
    if isJsonWs c then ⟨.objStart, s.stack⟩
    else if c = '"' then ⟨.strBody true, s.stack⟩
    else if c = '}' then
      match s.stack with
      | .obj :: rest => ⟨.afterValue, rest⟩
      | _ => ⟨.reject, s.stack⟩
    else ⟨.reject, s.stack⟩
  | .objKey =>
    if isJsonWs c then ⟨.objKey, s.stack⟩
    else if c = '"' then ⟨.strBody true, s.stack⟩
    else ⟨.reject, s.stack⟩
  | .objColon =>
    if isJsonWs c then ⟨.objColon, s.stack⟩
    else if c = ':' then ⟨.value, s.stack⟩
    else ⟨.reject, s.stack⟩
  | .arrStart =>
    if c = ']' then
      match s.stack with
      | .arr :: rest => ⟨.afterValue, rest⟩
      | _ => ⟨.reject, s.stack⟩
    else startValue s.stack c
  | .afterValue => stepAfter s.stack c
  | .strBody isKey =>
    if c = '"' then (if isKey then ⟨.objColon, s.stack⟩ else ⟨.afterValue, s.stack⟩)
    else if c = '\\' then ⟨.strEsc isKey, s.stack⟩
    else if c.toNat < 32 then ⟨.reject, s.stack⟩
    else ⟨.strBody isKey, s.stack⟩
  | .strEsc isKey =>
    if c = '"' || c = '\\' || c = '/' || c = 'b' || c = 'f' || c = 'n' || c = 'r' || c = 't' then
      ⟨.strBody isKey, s.stack⟩
    else if c = 'u' then ⟨.strU isKey 4, s.stack⟩
    else ⟨.reject, s.stack⟩
  | .strU isKey k =>
    if isHexDigit c then
      (if k ≤ 1 then ⟨.strBody isKey, s.stack⟩ else ⟨.strU isKey (k - 1), s.stack⟩)
    else ⟨.reject, s.stack⟩
  | .numNeg =>
    if c = '0' then ⟨.numZero, s.stack⟩
    else if c.isDigit then ⟨.numInt, s.stack⟩
    else ⟨.reject, s.stack⟩
  | .numZero =>
    if c = '.' then ⟨.numDot, s.stack⟩
    else if c = 'e' || c = 'E' then ⟨.numE, s.stack⟩
    else if c.isDigit then ⟨.reject, s.stack⟩
    else stepAfter s.stack c
  | .numInt =>
    if c.isDigit then ⟨.numInt, s.stack⟩
    else if c = '.' then ⟨.numDot, s.stack⟩
    else if c = 'e' || c = 'E' then ⟨.numE, s.stack⟩
    else stepAfter s.stack c
  | .numDot =>
    if c.isDigit then ⟨.numFrac, s.stack⟩
    else ⟨.reject, s.stack⟩
  | .numFrac =>
    if c.isDigit then ⟨.numFrac, s.stack⟩
    else if c = 'e' || c = 'E' then ⟨.numE, s.stack⟩
    else stepAfter s.stack c
  | .numE =>
    if c.isDigit then ⟨.numExp, s.stack⟩
    else if c = '+' || c = '-' then ⟨.numESign, s.stack⟩
    else ⟨.reject, s.stack⟩
  | .numESign =>
    if c.isDigit then ⟨.numExp, s.stack⟩
    else ⟨.reject, s.stack⟩
  | .numExp =>
    if c.isDigit then ⟨.numExp, s.stack⟩
    else stepAfter s.stack c
  | .lit rest =>
    match rest with
    | [] => ⟨.reject, s.stack⟩
    | r :: rs =>
      if c = r then
        (if rs.isEmpty then ⟨.afterValue, s.stack⟩ else ⟨.lit rs, s.stack⟩)
      else ⟨.reject, s.stack⟩
  | .reject => ⟨.reject, s.stack⟩

/-- Initial state of the JSON machine. -/
def jsonInit : JState := ⟨.value, []⟩

/-- Run the machine over an input. -/
def jsonRun (s : JState) (l : List Char) : JState :=
  l.foldl jsonStep s

/-- Accepting states: a finished value at top level (numbers may end at
end-of-input). -/
def jsonIsAccept (s : JState) : Bool :=
  s.stack = [] &&
    (s.mode = .afterValue || s.mode = .numZero || s.mode = .numInt ||
     s.mode = .numFrac || s.mode = .numExp)

/-- The input is a syntactically complete JSON text. -/
def jsonAccept (l : List Char) : Bool :=
  jsonIsAccept (jsonRun jsonInit l)

/-- First character of the input after JSON whitespace. -/
def firstNonWs (l : List Char) : Option Char :=
  (l.dropWhile isJsonWs).head?

/-- Success condition of `json.Unmarshal(data, &m)` for
`m : map[string]interface{}`: a well-formed JSON text whose top-level value
is an object — or the literal `null`, which Go also accepts for a map
target. -/
def unmarshalMapOk (l : List Char) : Bool :=
  jsonAccept l && (firstNonWs l = some '{' || trimGo l = ['n', 'u', 'l', 'l'])

/-- A well-formed JSON object text: complete JSON whose first character is
`{` (no leading whitespace; the framer buffers are built from trimmed
fragments, so this is the shape that reaches the parser). -/
def jsonObjectComplete (l : List Char) : Bool :=
  jsonAccept l && l.head? = some '{'

/-- Machine states reachable after the opening `{` of an object: the stack
is still open, or the value has closed (`afterValue`), or the input has
been rejected.  In particular a top-level number state is unreachable, so
an accepted object run can only end in `afterValue` with an empty stack. -/
def ClosedS (s : JState) : Prop :=
  s.stack ≠ [] ∨ s.mode = .afterValue ∨ s.mode = .reject

/-! ## The stdout line-JSON reader (`ReadMessages`, subprocess transport)

Embeds the scanner loop of `ReadMessages`: each scanner line is trimmed,
split on embedded newlines, and each non-empty fragment is appended to the
single accumulation buffer; the buffer is size-checked, then parsed; on
success the parsed object is emitted and the buffer reset. -/

/-- Default accumulation cap (`defaultMaxBufferSize = 1024 * 1024`). -/
def defaultMaxBufferSize : Nat := 1024 * 1024

/-- Error surfaced on the reader's error channel from inside the scan loop. -/
inductive ReadErr
  /-- `CLIJSONDecodeError`: the accumulation buffer exceeded the cap. -/
  | decodeError
deriving DecidableEq

/-- State of the reader goroutine: the accumulation buffer, the messages
emitted so far (in order), and the single error slot — once set, the
goroutine has returned and processes nothing further. -/
structure ReaderState where
  jsonBuffer : List Char
  emitted : List (List Char)
  errorOut : Option ReadErr
deriving DecidableEq

/-- Process one newline-separated fragment (`jsonLine` in the source):
trim, skip if empty, append to the buffer, fail if the buffer exceeds
`maxBufferSize`, otherwise attempt to parse the whole buffer. -/
def processFragment (maxBufferSize : Nat) (st : ReaderState) (frag : List Char) :
    ReaderState :=
  if st.errorOut.isSome then st
  else
    let jsonLine := trimGo frag
    if jsonLine = [] then st
    else
      let buf := st.jsonBuffer ++ jsonLine
      if maxBufferSize < buf.length then
        { st with jsonBuffer := buf, errorOut := some .decodeError }
      else if unmarshalMapOk buf then
        { st with jsonBuffer := [], emitted := st.emitted ++ [buf] }
      else
        { st with jsonBuffer := buf }

/-- Process one scanner line: trim, skip if empty, split on embedded
newlines and fold the fragments into the buffer. -/
def processLine (maxBufferSize : Nat) (st : ReaderState) (line : List Char) :
    ReaderState :=
  if st.errorOut.isSome then st
  else
    let l := trimGo line
    if l = [] then st
    else (splitOnNewline l).foldl (processFragment maxBufferSize) st

/-- Initial reader state. -/
def readerInit : ReaderState := ⟨[], [], none⟩

/-- The scan loop of `ReadMessages` over a list of scanner lines. -/
def readMessages (maxBufferSize : Nat) (lines : List (List Char)) : ReaderState :=
  lines.foldl (processLine maxBufferSize) readerInit

/-! ## Options (`ClaudeAgentOptions`)

Only the fields read by the embedded functions are modelled.  Two
dynamically-typed Go fields are replaced by the sum of their recognised
shapes (`SystemPrompt`, `Tools`); fields whose values the embedded code
only ever renders to a string (`MaxBudgetUSD` via `%.2f`, `Sandbox` via
`json.Marshal`) are carried as their rendered string; Go maps iterated or
marshalled by the code (`McpServers`, `Agents`, `ExtraArgs`) are carried as
association lists in iteration order; the `CanUseTool` function pointer is
carried as its presence bit. -/

/-- The `system_prompt` option: a plain string, or a preset with an
optional append part (the `map` and the `SystemPromptPreset` struct cases
of the source behave identically and are merged; a preset map whose `type`
is not `"preset"` behaves like an absent prompt). -/
inductive SystemPromptOpt
  | str (s : String)
  | presetAppend (append : Option String)
deriving DecidableEq

/-- The `tools` option: an explicit list or the `claude_code` preset (a
preset map whose `type` is not `"preset"` behaves like an absent field). -/
inductive ToolsOpt
  | list (ts : List String)
  | preset
deriving DecidableEq

/-- An agent definition (`AgentDefinition`). -/
structure AgentDefinition where
  description : String
  prompt : String
  tools : List String := []
  model : Option String := none
deriving DecidableEq

/-- An MCP server configuration: an SDK in-process server (only its `type`
and `name` are forwarded) or an external one (forwarded as marshalled). -/
inductive McpServerCfg
  | sdk (typ : String) (nm : String)
  | external (configJSON : String)
deriving DecidableEq

/-- A plugin configuration. -/
structure PluginCfg where
  typ : String
  path : String
deriving DecidableEq

/-- The options structure (fields used by the embedded code). -/
structure ClaudeAgentOptions where
  SystemPrompt : Option SystemPromptOpt := none
  Tools : Option ToolsOpt := none
  AllowedTools : List String := []
  DisallowedTools : List String := []
  MaxTurns : Option Int := none
  Model : Option String := none
  FallbackModel : Option String := none
  Betas : List String := []
  MaxBudgetUSD : Option String := none
  MaxThinkingTokens : Option Int := none
  PermissionMode : Option String := none
  PermissionPromptToolName : Option String := none
  ContinueConversation : Bool := false
  Resume : Option String := none
  ForkSession : Bool := false
  Settings : Option String := none
  Sandbox : Option String := none
  AddDirs : List String := []
  McpServers : List (String × McpServerCfg) := []
  IncludePartialMessages : Bool := false
  Agents : List (String × AgentDefinition) := []
  SettingSources : Option (List String) := none
  Plugins : List PluginCfg := []
  ExtraArgs : List (String × Option String) := []
  Cwd : Option String := none
  CanUseTool : Bool := false
  MaxBufferSize : Option Nat := none
  StderrCallback : Bool := false
deriving DecidableEq

/-! ## Settings merging (`buildSettingsValue`)

Filesystem reads are passed in as `readFile` (`none` models a failing
`os.ReadFile`); `unmarshalMap` models `json.Unmarshal` into
`map[string]interface{}` at the level the merge needs, returning the
object's members as an association list whose values are their marshalled
JSON texts (`none` models a parse error). -/

/-- Go map assignment `m[k] = v` on an association-list representation. -/
def assocSet (l : List (String × String)) (k v : String) :
    List (String × String) :=
  if l.any (fun p => p.1 = k) then
    l.map (fun p => if p.1 = k then (k, v) else p)
  else l ++ [(k, v)]

/-- Insertion step of the key sort performed by `json.Marshal` on maps. -/
def insertByKey (p : String × String) : List (String × String) →
    List (String × String)
  | [] => [p]
  | q :: qs => if p.1 ≤ q.1 then p :: q :: qs else q :: insertByKey p qs

/-- Sort an association list by key (Go marshals maps in key order). -/
def sortByKey (l : List (String × String)) : List (String × String) :=
  l.foldr insertByKey []

/-- Model of Go `strings.Join(l, sep)`. -/
def joinSep (sep : String) : List String → String
  | [] => ""
  | [x] => x
  | x :: y :: rest => x ++ sep ++ joinSep sep (y :: rest)

/-- Go `strings.TrimSpace` on a `String` (via the character-list model). -/
def trimStr (s : String) : String := ⟨trimGo s.data⟩

/-- Go `strings.HasPrefix`. -/
def goHasPre (s pre : String) : Bool := pre.data.isPrefixOf s.data

/-- Go `strings.HasSuffix`. -/
def goHasSuf (s suf : String) : Bool := suf.data.isSuffixOf s.data

/-- Model of `json.Marshal` for a Go map whose values are carried as their
already-marshalled JSON texts (keys here never need escaping). -/
def marshalStringMap (obj : List (String × String)) : String :=
  "\x7b" ++
    joinSep "," ((sortByKey obj).map fun p => "\"" ++ p.1 ++ "\":" ++ p.2) ++
    "\x7d"

/-- Embeds `buildSettingsValue`: merge the `settings` option (a JSON text
or a file path) with the `sandbox` option (carried as its marshalled JSON)
into one settings JSON.  The trim is Go's `strings.TrimSpace` (modelled by
`String.trim`, which agrees on the ASCII whitespace arising here). -/
def buildSettingsValue (settings sandbox : Option String)
    (readFile : String → Option String)
    (unmarshalMap : String → Option (List (String × String))) :
    Except String String :=
  if settings.isNone ∧ sandbox.isNone then .ok ""
  else if settings.isSome ∧ sandbox.isNone then .ok (settings.getD "")
  else
    let parsedE : Except String (List (String × String)) :=
      match settings with
      | none => .ok []
      | some s =>
        let settingsStr := trimStr s
        if goHasPre settingsStr "\x7b" ∧ goHasSuf settingsStr "\x7d" then
          match unmarshalMap settingsStr with
          | some obj => .ok obj
          | none =>
            match readFile settingsStr with
            | some data =>
              match unmarshalMap data with
              | some obj => .ok obj
              | none => .error ("failed to parse settings file " ++ settingsStr)
            | none => .ok []
        else
          match readFile settingsStr with
          | none => .ok []
          | some data =>
            match unmarshalMap data with
            | some obj => .ok obj
            | none => .error ("failed to parse settings file " ++ settingsStr)
    match parsedE with
    | .error e => .error e
    | .ok obj =>
      let merged :=
        match sandbox with
        | some sb => assocSet obj "sandbox" sb
        | none => obj
      .ok (marshalStringMap merged)

/-! ## Argument building (`buildCommand`)

The argument vector is the concatenation of per-option blocks, in the
source's append order.  `%.2f`-formatted and `json.Marshal`-rendered values
are carried as strings (see the options model above). -/

def windowsCmdLengthLimit : Nat := 8000

def nonWindowsCmdLengthLimit : Nat := 100000

def joinComma (l : List String) : String := joinSep "," l

def systemPromptArgs (o : ClaudeAgentOptions) : List String :=
  match o.SystemPrompt with
  | none => ["--system-prompt", ""]
  | some (.str sp) => ["--system-prompt", sp]
  | some (.presetAppend (some ap)) => ["--append-system-prompt", ap]
  | some (.presetAppend none) => []

def toolsArgs (o : ClaudeAgentOptions) : List String :=
  match o.Tools with
  | none => []
  | some (.list ts) => if ts = [] then ["--tools", ""] else ["--tools", joinComma ts]
  | some .preset => ["--tools", "default"]

def allowedToolsArgs (o : ClaudeAgentOptions) : List String :=
  if o.AllowedTools = [] then [] else ["--allowedTools", joinComma o.AllowedTools]

def disallowedToolsArgs (o : ClaudeAgentOptions) : List String :=
  if o.DisallowedTools = [] then []
  else ["--disallowedTools", joinComma o.DisallowedTools]

def maxTurnsArgs (o : ClaudeAgentOptions) : List String :=
  match o.MaxTurns with
  | none => []
  | some n => ["--max-turns", toString n]

def modelArgs (o : ClaudeAgentOptions) : List String :=
  match o.Model with
  | none => []
  | some m => ["--model", m]

def fallbackModelArgs (o : ClaudeAgentOptions) : List String :=
  match o.FallbackModel with
  | none => []
  | some m => ["--fallback-model", m]

def betasArgs (o : ClaudeAgentOptions) : List String :=
  if o.Betas = [] then [] else ["--betas", joinComma o.Betas]

def maxBudgetArgs (o : ClaudeAgentOptions) : List String :=
  match o.MaxBudgetUSD with
  | none => []
  | some v => ["--max-budget-usd", v]

def maxThinkingTokensArgs (o : ClaudeAgentOptions) : List String :=
  match o.MaxThinkingTokens with
  | none => []
  | some n => ["--max-thinking-tokens", toString n]

def permissionModeArgs (o : ClaudeAgentOptions) : List String :=
  match o.PermissionMode with
  | none => []
  | some m => ["--permission-mode", m]

def permissionPromptToolArgs (o : ClaudeAgentOptions) : List String :=
  match o.PermissionPromptToolName with
  | none => []
  | some n => ["--permission-prompt-tool", n]

def continueArgs (o : ClaudeAgentOptions) : List String :=
  if o.ContinueConversation then ["--continue"] else []

def resumeArgs (o : ClaudeAgentOptions) : List String :=
  match o.Resume with
  | none => []
  | some r => ["--resume", r]

def forkSessionArgs (o : ClaudeAgentOptions) : List String :=
  if o.ForkSession then ["--fork-session"] else []

def settingsArgs (settingsValue : String) : List String :=
  if settingsValue = "" then [] else ["--settings", settingsValue]

def addDirsArgs (o : ClaudeAgentOptions) : List String :=
  o.AddDirs.foldr (fun d acc => "--add-dir" :: d :: acc) []

/-- Marshalled form of one entry of the `--mcp-config` map: SDK servers are
reduced to their `type` and `name`; external ones pass through. -/
def renderMcpServer : McpServerCfg → String
  | .sdk typ nm => "\x7b\"name\":\"" ++ nm ++ "\",\"type\":\"" ++ typ ++ "\"\x7d"
  | .external configJSON => configJSON

def mcpConfigJSON (servers : List (String × McpServerCfg)) : String :=
  "\x7b\"mcpServers\":" ++
    marshalStringMap (servers.map fun p => (p.1, renderMcpServer p.2)) ++ "\x7d"

def mcpServersArgs (o : ClaudeAgentOptions) : List String :=
  if o.McpServers = [] then [] else ["--mcp-config", mcpConfigJSON o.McpServers]

def includePartialArgs (o : ClaudeAgentOptions) : List String :=
  if o.IncludePartialMessages then ["--include-partial-messages"] else []

/-- Marshalled form of one agent definition (`json.Marshal` of the Go
struct; no theorem below depends on the member order chosen here, only on
the rendered text's presence and length). -/
def renderAgentDef (d : AgentDefinition) : String :=
  "\x7b\"description\":\"" ++ d.description ++ "\",\"prompt\":\"" ++ d.prompt ++ "\"" ++
    (if d.tools = [] then ""
     else ",\"tools\":[" ++
       joinSep "," (d.tools.map fun t => "\"" ++ t ++ "\"") ++ "]") ++
    (match d.model with
     | none => ""
     | some m => ",\"model\":\"" ++ m ++ "\"") ++ "\x7d"

/-- `json.Marshal(t.options.Agents)` (a Go map: keys are sorted). -/
def agentsJSON (agents : List (String × AgentDefinition)) : String :=
  marshalStringMap (agents.map fun p => (p.1, renderAgentDef p.2))

def agentsArgs (o : ClaudeAgentOptions) : List String :=
  if o.Agents = [] then [] else ["--agents", agentsJSON o.Agents]

def settingSourcesArgs (o : ClaudeAgentOptions) : List String :=
  match o.SettingSources with
  | none => ["--setting-sources", ""]
  | some srcs => ["--setting-sources", joinComma srcs]

def pluginsArgs (o : ClaudeAgentOptions) : List String :=
  o.Plugins.foldr
    (fun p acc => if p.typ = "local" then "--plugin-dir" :: p.path :: acc else acc) []

def extraArgsArgs (o : ClaudeAgentOptions) : List String :=
  o.ExtraArgs.foldr
    (fun p acc =>
      match p.2 with
      | none => ("--" ++ p.1) :: acc
      | some v => ("--" ++ p.1) :: v :: acc) []

def inputModeArgs (isStreaming : Bool) (promptStr : String) : List String :=
  if isStreaming then ["--input-format", "stream-json"]
  else ["--print", "--", promptStr]

/-- The argument vector before the length check, blocks in source order. -/
def buildCommandArgs (o : ClaudeAgentOptions) (isStreaming : Bool)
    (promptStr : String) (settingsValue : String) : List String :=
  ["--output-format", "stream-json", "--verbose"] ++
    systemPromptArgs o ++ toolsArgs o ++ allowedToolsArgs o ++
    disallowedToolsArgs o ++ maxTurnsArgs o ++ modelArgs o ++
    fallbackModelArgs o ++ betasArgs o ++ maxBudgetArgs o ++
    maxThinkingTokensArgs o ++ permissionModeArgs o ++
    permissionPromptToolArgs o ++ continueArgs o ++ resumeArgs o ++
    forkSessionArgs o ++ settingsArgs settingsValue ++ addDirsArgs o ++
    mcpServersArgs o ++ includePartialArgs o ++ agentsArgs o ++
    settingSourcesArgs o ++ pluginsArgs o ++ extraArgsArgs o ++
    inputModeArgs isStreaming promptStr

/-- The blocks of the argument vector that precede the agents flag (the
"earlier option values" of the rewrite loop's scan). -/
def preAgentsArgs (o : ClaudeAgentOptions) (settingsValue : String) :
    List String :=
  ["--output-format", "stream-json", "--verbose"] ++
    systemPromptArgs o ++ toolsArgs o ++ allowedToolsArgs o ++
    disallowedToolsArgs o ++ maxTurnsArgs o ++ modelArgs o ++
    fallbackModelArgs o ++ betasArgs o ++ maxBudgetArgs o ++
    maxThinkingTokensArgs o ++ permissionModeArgs o ++
    permissionPromptToolArgs o ++ continueArgs o ++ resumeArgs o ++
    forkSessionArgs o ++ settingsArgs settingsValue ++ addDirsArgs o ++
    mcpServersArgs o ++ includePartialArgs o

/-- The temp-file rewrite loop (`for i, arg := range args`): at the first
element equal to `"--agents"` that has a successor (`i+1 < len(args)`),
replace the successor by `@<tempName>` and return it as the temp file's
content; `none` when no such element exists. -/
def replaceAfterAgents (tempName : String) :
    List String → Option (List String × String)
  | [] => none
  | x :: rest =>
    if x = "--agents" then
      match rest with
      | v :: rest' => some (x :: ("@" ++ tempName) :: rest', v)
      | [] => (replaceAfterAgents tempName rest).map fun pr => (x :: pr.1, pr.2)
    else
      (replaceAfterAgents tempName rest).map fun pr => (x :: pr.1, pr.2)

def joinSpace (l : List String) : String := joinSep " " l

/-- Result of `buildCommand`: the final argument vector, the temp files
recorded for cleanup, and the (path, content) pairs written. -/
structure BuildResult where
  args : List String
  tempFiles : List String
  tempWrites : List (String × String)
deriving DecidableEq

/-- Embeds `buildCommand`: build the argument vector, then, when its
space-joined length exceeds the platform limit and agents are present,
divert the agents JSON through a temp file.  `tempName` is the name
`os.CreateTemp` would produce; `tempFileOk = false` models temp-file
creation or writing failing (a warning: the args stay unchanged). -/
def buildCommand (o : ClaudeAgentOptions) (isStreaming : Bool)
    (promptStr : String) (isWindows : Bool) (tempName : String)
    (tempFileOk : Bool) (readFile : String → Option String)
    (unmarshalMap : String → Option (List (String × String))) :
    Except String BuildResult :=
  match buildSettingsValue o.Settings o.Sandbox readFile unmarshalMap with
  | .error e => .error e
  | .ok settingsValue =>
    let args := buildCommandArgs o isStreaming promptStr settingsValue
    let cmdLengthLimit :=
      if isWindows then windowsCmdLengthLimit else nonWindowsCmdLengthLimit
    if cmdLengthLimit < (joinSpace args).length ∧ o.Agents ≠ [] then
      if tempFileOk then
        match replaceAfterAgents tempName args with
        | some pr => .ok ⟨pr.1, [tempName], [(tempName, pr.2)]⟩
        | none => .ok ⟨args, [], []⟩
      else .ok ⟨args, [], []⟩
    else .ok ⟨args, [], []⟩

/-! ## Connect environment (ambient effects)

`Connect` on a fresh transport, with the ambient effects (version probe,
filesystem, pipe and process creation) supplied explicitly. -/

/-- Ambient effects seen by `Connect`. -/
structure ConnectEnv where
  skipVersionEnv : Bool := false
  probeOutput : Option (List Char) := none
  cwdExists : Bool := true
  readFile : String → Option String := fun _ => none
  unmarshalMap : String → Option (List (String × String)) := fun _ => none
  tempName : String := "tmp"
  tempFileOk : Bool := true
  isWindows : Bool := false
  stdinPipeOk : Bool := true
  stdoutPipeOk : Bool := true
  stderrPipeOk : Bool := true
  startOk : Bool := true

/-- The error `Connect` returns: a `CLIConnectionError`, or the wrapped
`failed to build command` error. -/
inductive ConnErr
  | connectionError (msg : String)
  | commandBuildError (msg : String)
deriving DecidableEq

def ConnErr.isConnectionError : ConnErr → Bool
  | .connectionError _ => true
  | .commandBuildError _ => false

/-- Outcome of `Connect`: the returned error, whether `cmd.Start()` was
reached and succeeded, and the final `ready` flag. -/
structure ConnectResult where
  err : Option ConnErr
  spawned : Bool
  ready : Bool
deriving DecidableEq

/-- Fixture: an agents map whose rendered JSON is over 8,000 bytes (the
Windows command-line limit). -/
def ceAgents : List (String × AgentDefinition) :=
  [("big", { description := "d", prompt := ⟨List.replicate 8001 'p'⟩ })]

/-- Fixture: options carrying the oversized agents map together with a
system prompt equal to the literal string `--agents`, which precedes the
agents flag in the argument vector. -/
def ceOpts : ClaudeAgentOptions :=
  { SystemPrompt := some (.str "--agents"), Agents := ceAgents }

/-! ## Permission validation (`validateAndConfigurePermissions`, helpers.go) -/

/-- Embeds `validateAndConfigurePermissions`.  The Go function takes a
possibly-nil `*ClaudeAgentOptions` and either returns its argument
untouched, an error, or a fresh copy (`newOpts := *options`) whose
`PermissionPromptToolName` is set to `"stdio"`. -/
def validateAndConfigurePermissions (options : Option ClaudeAgentOptions)
    (isStreaming : Bool) : Except String ClaudeAgentOptions :=
  match options with
  | none => .ok {}
  | some opts =>
    if opts.CanUseTool then
      if !isStreaming then
        .error "can_use_tool callback requires streaming mode"
      else if opts.PermissionPromptToolName.isSome then
        .error "can_use_tool callback cannot be used with permission_prompt_tool_name"
      else
        .ok { opts with PermissionPromptToolName := some "stdio" }
    else
      .ok opts

/-! ## Lock-acquisition traces (subprocess transport)

Each method of `SubprocessCLITransport` is transcribed to the sequence of
mutex operations it performs, in program order (deferred unlocks run in
LIFO order at return).  `mu` is the state mutex (an `RWMutex`; `R` marks
the read-locked form), `writeMu` the dedicated write mutex. -/

/-- A mutex operation. -/
inductive LockEv
  | acqState
  | relState
  | acqStateR
  | relStateR
  | acqWrite
  | relWrite
deriving DecidableEq

/-- The execution paths of the transport that touch a mutex.  `Write` is
split into its four exits: the three early state-check returns, the
successful write, and the stdin-write-failure branch. -/
inductive CodePath
  | connect
  | isReady
  | writeNotReady
  | writeTerminated
  | writeExitErr
  | writeSuccess
  | writeStdinError
  | endInput
  | close
deriving DecidableEq

/-- Mutex operations of each path, transcribed from the source. -/
def lockTrace : CodePath → List LockEv
  | .connect => [.acqState, .relState]
  | .isReady => [.acqStateR, .relStateR]
  | .writeNotReady => [.acqStateR, .relStateR]
  | .writeTerminated => [.acqStateR, .relStateR]
  | .writeExitErr => [.acqStateR, .relStateR]
  | .writeSuccess => [.acqStateR, .relStateR, .acqWrite, .relWrite]
  | .writeStdinError => [.acqStateR, .relStateR, .acqWrite, .acqState, .relState, .relWrite]
  | .endInput => [.acqWrite, .acqState, .relState, .relWrite]
  | .close => [.acqWrite, .acqState, .relState, .relWrite]

/-- Scans a trace and reports whether the state mutex (in either form) is
acquired at a moment when the write mutex is held. -/
def stateAcqWhileWriteHeld (writeHeld : Bool) : List LockEv → Bool
  | [] => false
  | ev :: evs =>
    match ev with
    | .acqWrite => stateAcqWhileWriteHeld true evs
    | .relWrite => stateAcqWhileWriteHeld false evs
    | .acqState => writeHeld || stateAcqWhileWriteHeld writeHeld evs
    | .acqStateR => writeHeld || stateAcqWhileWriteHeld writeHeld evs
    | .relState => stateAcqWhileWriteHeld writeHeld evs
    | .relStateR => stateAcqWhileWriteHeld writeHeld evs

/-! ## Version probe (`checkClaudeVersion`, `compareVersions`) -/

/-- Numeric value of a digit string. -/
def digitsToNat (l : List Char) : Nat :=
  l.foldl (fun n c => n * 10 + (c.toNat - 48)) 0

/-- Model of `strconv.Atoi` as used by `compareVersions`: the parsed value,
or 0 when parsing fails (the source discards the error). -/
def atoiGo (l : List Char) : Int :=
  match l with
  | '-' :: ds =>
    if ds ≠ [] ∧ ds.all Char.isDigit then -((digitsToNat ds : Int)) else 0
  | '+' :: ds =>
    if ds ≠ [] ∧ ds.all Char.isDigit then ((digitsToNat ds : Int)) else 0
  | ds =>
    if ds ≠ [] ∧ ds.all Char.isDigit then ((digitsToNat ds : Int)) else 0

/-- Model of Go `strings.Split(s, sep)` for a one-character separator. -/
def splitOnChar (sep : Char) : List Char → List (List Char)
  | [] => [[]]
  | c :: cs =>
    match splitOnChar sep cs with
    | [] => [[]]
    | g :: gs => if c = sep then [] :: g :: gs else (c :: g) :: gs

/-- Comparison loop of `compareVersions` over the first three components. -/
def cmpNumPairs : List (Int × Int) → Int
  | [] => 0
  | (a, b) :: rest => if a < b then -1 else if b < a then 1 else cmpNumPairs rest

/-- Embeds `compareVersions`: split both versions on `.`, compare the first
three components numerically (missing components count as 0). -/
def compareVersions (v1 v2 : List Char) : Int :=
  let parts1 := splitOnChar '.' v1
  let parts2 := splitOnChar '.' v2
  cmpNumPairs (([0, 1, 2] : List Nat).map fun i =>
    (if i < parts1.length then atoiGo (parts1.getD i []) else 0,
     if i < parts2.length then atoiGo (parts2.getD i []) else 0))

/-- Attempts to match `[0-9]+\.[0-9]+\.[0-9]+` at the head of the input
(greedy digit runs, as the RE2 pattern behaves here). -/
def matchSemverAt (l : List Char) : Option (List Char) :=
  let d1 := l.takeWhile Char.isDigit
  if d1 = [] then none
  else
    match l.drop d1.length with
    | '.' :: r1 =>
      let d2 := r1.takeWhile Char.isDigit
      if d2 = [] then none
      else
        match r1.drop d2.length with
        | '.' :: r2 =>
          let d3 := r2.takeWhile Char.isDigit
          if d3 = [] then none
          else some (d1 ++ '.' :: d2 ++ '.' :: d3)
        | _ => none
    | _ => none

/-- Leftmost match of the semver pattern (`re.FindStringSubmatch`). -/
def findFirstSemver : List Char → Option (List Char)
  | [] => none
  | c :: cs =>
    match matchSemverAt (c :: cs) with
    | some m => some m
    | none => findFirstSemver cs

/-- The constant `minimumClaudeCodeVersion = "2.0.0"` the probe compares
against. -/
def minimumClaudeCodeVersion : List Char := ['2', '.', '0', '.', '0']

/-- Outcome of the version probe: whether `claude -v` was executed, whether
the outdated-version warning was printed to stderr, and the returned error. -/
structure VersionCheck where
  ran : Bool
  warned : Bool
  err : Option String
deriving DecidableEq

/-- Embeds `checkClaudeVersion`.  `skipEnvSet` models
`CLAUDE_AGENT_SDK_SKIP_VERSION_CHECK` being non-empty; `probeOutput` is the
output of `claude -v`, or `none` when the probe command failed. -/
def checkClaudeVersion (skipEnvSet : Bool) (probeOutput : Option (List Char)) :
    VersionCheck :=
  if skipEnvSet then ⟨false, false, none⟩
  else
    match probeOutput with
    | none => ⟨true, false, none⟩
    | some out =>
      let versionStr := trimGo out
      match findFirstSemver versionStr with
      | none => ⟨true, false, none⟩
      | some v =>
        ⟨true, decide (compareVersions v minimumClaudeCodeVersion < 0), none⟩

/-! ## Connect (subprocess spawn path) -/

/-- Embeds `Connect` on a fresh transport, in source order: version check
(never fails), command build, cwd validation, pipe creation, process
start. -/
def connectTransport (o : ClaudeAgentOptions) (isStreaming : Bool)
    (promptStr : String) (env : ConnectEnv) : ConnectResult :=
  match (checkClaudeVersion env.skipVersionEnv env.probeOutput).err with
  | some e => ⟨some (.connectionError e), false, false⟩
  | none =>
    match buildCommand o isStreaming promptStr env.isWindows env.tempName
        env.tempFileOk env.readFile env.unmarshalMap with
    | .error msg =>
      ⟨some (.commandBuildError ("failed to build command: " ++ msg)), false, false⟩
    | .ok _ =>
      let cwd := o.Cwd.getD ""
      if cwd ≠ "" ∧ ¬env.cwdExists then
        ⟨some (.connectionError ("working directory does not exist: " ++ cwd)),
          false, false⟩
      else if ¬env.stdinPipeOk then
        ⟨some (.connectionError "failed to create stdin pipe"), false, false⟩
      else if ¬env.stdoutPipeOk then
        ⟨some (.connectionError "failed to create stdout pipe"), false, false⟩
      else if (o.StderrCallback ||
          o.ExtraArgs.any fun p => p.1 = "debug-to-stderr" && p.2.isSome) &&
          !env.stderrPipeOk then
        ⟨some (.connectionError "failed to create stderr pipe"), false, false⟩
      else if ¬env.startOk then
        ⟨some (.connectionError "failed to start Claude Code"), false, false⟩
      else ⟨none, true, true⟩

/-! ## The `processQuery` output loop (query.go)

The message-forwarding goroutine of `processQuery` is a `select` loop; each
iteration consumes one event.  Every send on the error channel is
immediately followed by `return`, which the recursion mirrors. -/

/-- One iteration's event in the `processQuery` forwarding loop. -/
inductive QueryEvent
  /-- `ctx.Done()` was selected. -/
  | ctxCancelled
  /-- The handler's error channel yielded `e` (`none` models a nil read
  from a closed channel). -/
  | recvErr (e : Option String)
  /-- The handler's message channel was closed. -/
  | msgChanClosed
  /-- A message arrived; `parsed` is the `parseMessage` outcome and
  `sendCancelled` tells whether forwarding it lost the race against
  `ctx.Done()`. -/
  | msgData (parsed : Except String Unit) (sendCancelled : Bool)

/-- The values sent on `errCh` by the `processQuery` forwarding loop, for a
given sequence of loop events. -/
def processQueryErrors : List QueryEvent → List String
  | [] => []
  | ev :: rest =>
    match ev with
    | .ctxCancelled => ["context cancelled"]
    | .recvErr none => processQueryErrors rest
    | .recvErr (some e) => [e]
    | .msgChanClosed => []
    | .msgData (.error e) _ => [e]
    | .msgData (.ok _) true => ["context cancelled"]
    | .msgData (.ok _) false => processQueryErrors rest

/-! ## Concurrent writes to stdin (`Write`, write mutex)

Two concurrent `Write` calls are modelled as an interleaved transition
system.  Each writer executes lock → byte-wise emission to stdin → unlock
(the byte granularity models that, absent the mutex, the pipe could
interleave at any boundary); the scheduler picks any enabled step. -/

/-- Global state: who holds `writeMu`, each writer's program counter, and
the bytes on stdin so far.  Counter values: `0` = not started; `1 + k` with
`k ≤ len` = holding the lock having emitted `k` bytes; `len + 2` = done. -/
structure WriteSysState where
  lockOwner : Option Bool
  pcA : Nat
  pcB : Nat
  output : List Char
deriving DecidableEq

/-- Interleaving semantics of two concurrent `Write(a)` / `Write(b)` calls
(writer `A` is `some false`, writer `B` is `some true`). -/
inductive WriteStep (a b : List Char) : WriteSysState → WriteSysState → Prop
  | lockA (s : WriteSysState) (h1 : s.lockOwner = none) (h2 : s.pcA = 0) :
      WriteStep a b s { s with lockOwner := some false, pcA := 1 }
  | emitA (s : WriteSysState) (h1 : s.lockOwner = some false)
      (h2 : 1 ≤ s.pcA) (h3 : s.pcA ≤ a.length) :
      WriteStep a b s
        { s with pcA := s.pcA + 1, output := s.output ++ [a.getD (s.pcA - 1) ' '] }
  | unlockA (s : WriteSysState) (h1 : s.lockOwner = some false)
      (h2 : s.pcA = a.length + 1) :
      WriteStep a b s { s with lockOwner := none, pcA := a.length + 2 }
  | lockB (s : WriteSysState) (h1 : s.lockOwner = none) (h2 : s.pcB = 0) :
      WriteStep a b s { s with lockOwner := some true, pcB := 1 }
  | emitB (s : WriteSysState) (h1 : s.lockOwner = some true)
      (h2 : 1 ≤ s.pcB) (h3 : s.pcB ≤ b.length) :
      WriteStep a b s
        { s with pcB := s.pcB + 1, output := s.output ++ [b.getD (s.pcB - 1) ' '] }
  | unlockB (s : WriteSysState) (h1 : s.lockOwner = some true)
      (h2 : s.pcB = b.length + 1) :
      WriteStep a b s { s with lockOwner := none, pcB := b.length + 2 }

/-- Initial state: lock free, nothing started, stdin empty. -/
def writeInit : WriteSysState := ⟨none, 0, 0, []⟩

/-- States reachable by any interleaving of the two writers. -/
def WriteReachable (a b : List Char) (s : WriteSysState) : Prop :=
  Relation.ReflTransGen (WriteStep a b) writeInit s

/-- Invariant of the interleaved system: the non-holder is either not
started or completely done, and stdin holds the completed message(s)
followed by the holder's partial prefix. -/
def WriteInv (a b : List Char) (s : WriteSysState) : Prop :=
  match s.lockOwner with
  | none =>
    (s.pcA = 0 ∨ s.pcA = a.length + 2) ∧ (s.pcB = 0 ∨ s.pcB = b.length + 2) ∧
      (s.output = a.take (s.pcA - 1) ++ b.take (s.pcB - 1) ∨
       s.output = b.take (s.pcB - 1) ++ a.take (s.pcA - 1))
  | some false =>
    1 ≤ s.pcA ∧ s.pcA ≤ a.length + 1 ∧
      ((s.pcB = 0 ∧ s.output = a.take (s.pcA - 1)) ∨
       (s.pcB = b.length + 2 ∧ s.output = b ++ a.take (s.pcA - 1)))
  | some true =>
    1 ≤ s.pcB ∧ s.pcB ≤ b.length + 1 ∧
      ((s.pcA = 0 ∧ s.output = b.take (s.pcB - 1)) ∨
       (s.pcA = a.length + 2 ∧ s.output = a ++ b.take (s.pcB - 1)))

/-! # Theorems -/

/-! ## C9: the `Query` error channel carries at most one value -/

/-- C9: For every call to `Query` (and `QueryStream`), the returned error
channel carries at most one value over its entire lifetime before being
closed, regardless of how many messages, parse failures, or context
cancellations occur: every send in the forwarding loop is immediately
followed by `return`. -/
theorem processQuery_error_channel_at_most_one (evs : List QueryEvent) :
    (processQueryErrors evs).length ≤ 1 := by
  induction evs with
  | nil => simp [processQueryErrors]
  | cons ev rest ih =>
    cases ev with
    | ctxCancelled => simp [processQueryErrors]
    | recvErr e =>
      cases e with
      | none => simpa [processQueryErrors] using ih
      | some e => simp [processQueryErrors]
    | msgChanClosed => simp [processQueryErrors]
    | msgData parsed sendCancelled =>
      cases parsed with
      | error e => simp [processQueryErrors]
      | ok u =>
        cases sendCancelled with
        | true => simp [processQueryErrors]
        | false => simpa [processQueryErrors] using ih

/-! ## C10: `validateAndConfigurePermissions` is effect-free on its input -/

/-- C10: `validateAndConfigurePermissions` never mutates its argument: it
returns the very same options unchanged when no `CanUseTool` callback is
set; an error when the callback is set without streaming mode or together
with `PermissionPromptToolName`; and exactly when the callback is set,
streaming is on and `PermissionPromptToolName` is unset, a fresh copy
differing from the input only in `PermissionPromptToolName := "stdio"`. -/
theorem validateAndConfigurePermissions_frame (opts : ClaudeAgentOptions)
    (isStreaming : Bool) :
    (opts.CanUseTool = false →
      validateAndConfigurePermissions (some opts) isStreaming = .ok opts) ∧
    (opts.CanUseTool = true → isStreaming = false →
      ∃ e, validateAndConfigurePermissions (some opts) isStreaming = .error e) ∧
    (opts.CanUseTool = true → isStreaming = true →
      opts.PermissionPromptToolName.isSome = true →
      ∃ e, validateAndConfigurePermissions (some opts) isStreaming = .error e) ∧
    (opts.CanUseTool = true → isStreaming = true →
      opts.PermissionPromptToolName = none →
      validateAndConfigurePermissions (some opts) isStreaming =
        .ok { opts with PermissionPromptToolName := some "stdio" }) := by
  refine ⟨fun h => ?_, fun h hs => ?_, fun h hs hp => ?_, fun h hs hp => ?_⟩
  · simp [validateAndConfigurePermissions, h]
  · subst hs; simp [validateAndConfigurePermissions, h]
  · subst hs; simp [validateAndConfigurePermissions, h, hp]
  · subst hs; simp [validateAndConfigurePermissions, h, hp]

/-- C10 witness: a concrete options value with the callback set, streaming
on and `PermissionPromptToolName` unset comes back as a copy whose only
changed field is `PermissionPromptToolName = "stdio"`. -/
theorem validateAndConfigurePermissions_frame_witness :
    validateAndConfigurePermissions
        (some { CanUseTool := true : ClaudeAgentOptions }) true =
      .ok { CanUseTool := true, PermissionPromptToolName := some "stdio" } :=
  (validateAndConfigurePermissions_frame { CanUseTool := true } true).2.2.2
    rfl rfl rfl

/-! ## C4: state-mutex acquisition while holding the write mutex -/

/-- C4 counterexample: the claim says only the close paths (`Close`,
`EndInput`) acquire the state mutex while holding the write mutex, but
`Write`'s stdin-failure branch locks the state mutex inside the
write-mutex critical section as well. -/
theorem write_error_path_acquires_state_under_write :
    stateAcqWhileWriteHeld false (lockTrace .writeStdinError) = true ∧
    CodePath.writeStdinError ≠ CodePath.close ∧
    CodePath.writeStdinError ≠ CodePath.endInput := by
  decide

/-- C4 amended: no execution path of the subprocess transport acquires the
state mutex while already holding the write mutex, except `Close`,
`EndInput`, and `Write`'s stdin-failure branch — all of which take the
write mutex first and then the state mutex. -/
theorem stateAcq_under_write_only_close_endInput_writeError (p : CodePath) :
    stateAcqWhileWriteHeld false (lockTrace p) =
      decide (p = .close ∨ p = .endInput ∨ p = .writeStdinError) := by
  cases p <;> decide

/-! ## C6: the version probe never blocks `Connect` -/

/-- Helper: `checkClaudeVersion` returns no error on any input. -/
theorem checkClaudeVersion_err_none (skipEnvSet : Bool)
    (probeOutput : Option (List Char)) :
    (checkClaudeVersion skipEnvSet probeOutput).err = none := by
  cases skipEnvSet with
  | true => simp [checkClaudeVersion]
  | false =>
    cases probeOutput with
    | none => simp [checkClaudeVersion]
    | some out =>
      simp only [checkClaudeVersion, Bool.false_eq_true, if_false]
      cases h : findFirstSemver (trimGo out) <;> simp

/-- C6: the pre-launch version probe never causes `Connect` to fail: its
error result is always `none` (probe failure and non-parseable output
included); the probe runs exactly when the skip-version-check environment
variable is unset; and when the first parsed `M.m.p` token compares below
the compile-time minimum, the stderr warning is emitted while the result
still carries no error. -/
theorem checkClaudeVersion_never_blocks (skipEnvSet : Bool)
    (probeOutput : Option (List Char)) :
    (checkClaudeVersion skipEnvSet probeOutput).err = none ∧
    (checkClaudeVersion skipEnvSet probeOutput).ran = !skipEnvSet ∧
    (∀ out v, skipEnvSet = false → probeOutput = some out →
      findFirstSemver (trimGo out) = some v →
      compareVersions v minimumClaudeCodeVersion < 0 →
      (checkClaudeVersion skipEnvSet probeOutput).warned = true) := by
  refine ⟨checkClaudeVersion_err_none skipEnvSet probeOutput, ?_, ?_⟩
  · cases skipEnvSet with
    | true => simp [checkClaudeVersion]
    | false =>
      cases probeOutput with
      | none => simp [checkClaudeVersion]
      | some out =>
        simp only [checkClaudeVersion, Bool.false_eq_true, if_false]
        cases h : findFirstSemver (trimGo out) <;> simp
  · intro out v hskip hprobe hfind hcmp
    subst hskip; subst hprobe
    simp [checkClaudeVersion, hfind, hcmp]

/-- C6 witness: with the skip variable unset and probe output `1.0.0`
(below the minimum `2.0.0`), the probe runs, warns, and returns no error. -/
theorem checkClaudeVersion_never_blocks_witness :
    (checkClaudeVersion false (some ("1.0.0".data))).err = none ∧
    (checkClaudeVersion false (some ("1.0.0".data))).warned = true := by
  refine ⟨(checkClaudeVersion_never_blocks false (some ("1.0.0".data))).1, ?_⟩
  exact (checkClaudeVersion_never_blocks false (some ("1.0.0".data))).2.2
    ("1.0.0".data) ("1.0.0".data) rfl rfl (by decide) (by decide)

/-! ## C8: unusable settings are silently ignored when a sandbox is set -/

/-- Helper: joining a one-element list is the element. -/
theorem joinSep_single (sep x : String) : joinSep sep [x] = x := rfl

/-- C8: when the options carry a sandbox together with a `Settings` string
that neither parses as a JSON object nor names a readable file,
`buildSettingsValue` ignores the settings value without error and returns
the JSON of an object containing only the sandbox configuration. -/
theorem buildSettingsValue_ignores_unusable_settings (s sb : String)
    (readFile : String → Option String)
    (unmarshalMap : String → Option (List (String × String)))
    (hparse : unmarshalMap (trimStr s) = none)
    (hread : readFile (trimStr s) = none) :
    buildSettingsValue (some s) (some sb) readFile unmarshalMap =
      .ok ("\x7b\"sandbox\":" ++ sb ++ "\x7d") := by
  have hm : marshalStringMap [("sandbox", sb)] =
      "\x7b\"sandbox\":" ++ sb ++ "\x7d" := by
    show ("\x7b" : String) ++ ("\"sandbox\":" ++ sb) ++ "\x7d" =
      "\x7b\"sandbox\":" ++ sb ++ "\x7d"
    rw [← String.append_assoc]
    rfl
  by_cases hb : (goHasPre (trimStr s) "\x7b" = true ∧ goHasSuf (trimStr s) "\x7d" = true)
  · simp [buildSettingsValue, hb, hparse, hread, assocSet, hm]
  · simp [buildSettingsValue, hb, hparse, hread, assocSet, hm]

/-- C8 witness: a concrete unparseable, unreadable settings string with a
concrete sandbox yields exactly the sandbox-only JSON object. -/
theorem buildSettingsValue_ignores_unusable_settings_witness :
    buildSettingsValue (some "p") (some "true") (fun _ => none) (fun _ => none) =
      .ok "\x7b\"sandbox\":true\x7d" := by
  have h := buildSettingsValue_ignores_unusable_settings "p" "true"
    (fun _ => none) (fun _ => none) rfl rfl
  simpa using h

/-! ## C7: missing working directory fails `Connect` before spawn -/

/-- C7 counterexample: the claim promises a `ConnectionError` whenever the
supplied working directory is missing, but options whose `Settings` names
a readable file with unparseable content make `Connect` return the wrapped
command-build error instead (the build runs before the cwd check) — still
before spawn, but not a `ConnectionError`. -/
theorem connect_missing_cwd_counterexample :
    ((connectTransport
        { Cwd := some "/nope", Settings := some "p", Sandbox := some "\x7b\x7d" }
        true ""
        { cwdExists := false, readFile := fun _ => some "notjson",
          unmarshalMap := fun _ => none }).err.map ConnErr.isConnectionError)
      = some false ∧
    (connectTransport
        { Cwd := some "/nope", Settings := some "p", Sandbox := some "\x7b\x7d" }
        true ""
        { cwdExists := false, readFile := fun _ => some "notjson",
          unmarshalMap := fun _ => none }).spawned = false := by
  exact ⟨by decide, by decide⟩

/-- C7 amended: if the options supply a working directory that does not
exist, `Connect` returns an error before the child process is spawned and
the transport never becomes ready; the error is the cwd `ConnectionError`
whenever the command-argument build succeeds. -/
theorem connect_missing_cwd_fails_before_spawn (o : ClaudeAgentOptions)
    (isStreaming : Bool) (promptStr : String) (env : ConnectEnv) (d : String)
    (hcwd : o.Cwd = some d) (hne : d ≠ "") (hex : env.cwdExists = false) :
    (connectTransport o isStreaming promptStr env).err.isSome = true ∧
    (connectTransport o isStreaming promptStr env).spawned = false ∧
    (connectTransport o isStreaming promptStr env).ready = false ∧
    (∀ r, buildCommand o isStreaming promptStr env.isWindows env.tempName
        env.tempFileOk env.readFile env.unmarshalMap = .ok r →
      (connectTransport o isStreaming promptStr env).err =
        some (.connectionError ("working directory does not exist: " ++ d))) := by
  have hv := checkClaudeVersion_err_none env.skipVersionEnv env.probeOutput
  cases hbc : buildCommand o isStreaming promptStr env.isWindows env.tempName
      env.tempFileOk env.readFile env.unmarshalMap with
  | error msg =>
    refine ⟨?_, ?_, ?_, ?_⟩ <;>
      simp [connectTransport, hv, hbc]
  | ok r =>
    refine ⟨?_, ?_, ?_, ?_⟩ <;>
      simp [connectTransport, hv, hbc, hcwd, hne, hex]

/-- C7 amended witness: a concrete missing cwd with an otherwise-default
environment produces exactly the cwd `ConnectionError`, unspawned and
unready. -/
theorem connect_missing_cwd_fails_before_spawn_witness :
    (connectTransport { Cwd := some "/nope" } true "" { cwdExists := false }).err =
      some (.connectionError "working directory does not exist: /nope") ∧
    (connectTransport { Cwd := some "/nope" } true ""
      { cwdExists := false }).ready = false := by
  refine ⟨?_, ?_⟩
  · exact (connect_missing_cwd_fails_before_spawn { Cwd := some "/nope" } true ""
      { cwdExists := false } "/nope" rfl (by decide) rfl).2.2.2 _ rfl
  · exact (connect_missing_cwd_fails_before_spawn { Cwd := some "/nope" } true ""
      { cwdExists := false } "/nope" rfl (by decide) rfl).2.2.1

/-! ## JSON machine lemmas (for the framer claims) -/

/-- Helper: one step of a run. -/
theorem jsonRun_cons (s : JState) (c : Char) (cs : List Char) :
    jsonRun s (c :: cs) = jsonRun (jsonStep s c) cs := rfl

/-- Helper: a run over a concatenation factors through the middle state. -/
theorem jsonRun_append (s : JState) (l1 l2 : List Char) :
    jsonRun s (l1 ++ l2) = jsonRun (jsonRun s l1) l2 :=
  List.foldl_append jsonStep s l1 l2

/-- Helper: the reject mode is absorbing. -/
theorem jsonRun_reject (st : List JFrame) (l : List Char) :
    jsonRun ⟨.reject, st⟩ l = ⟨.reject, st⟩ := by
  induction l with
  | nil => rfl
  | cons c cs ih => simpa [jsonRun_cons, jsonStep] using ih

/-- Helper: `stepAfter` only yields closed-or-rejected-or-open states. -/
theorem closedS_stepAfter (stack : List JFrame) (c : Char) :
    ClosedS (stepAfter stack c) := by
  rcases stack with _ | ⟨f, rest⟩
  · unfold stepAfter
    split_ifs <;> simp [ClosedS]
  · cases f <;> (unfold stepAfter; split_ifs <;> simp [ClosedS])

/-- Helper: from a nonempty stack, starting a value stays closed. -/
theorem closedS_startValue (st : List JFrame) (c : Char) (h : st ≠ []) :
    ClosedS (startValue st c) := by
  have hst : (startValue st c).stack ≠ [] := by
    unfold startValue
    split_ifs <;> simp [h]
  exact Or.inl hst

/-- Helper: any step from a state with a nonempty stack stays closed. -/
theorem closedS_jsonStep_of_stack_ne (m : JMode) (st : List JFrame) (c : Char)
    (h : st ≠ []) : ClosedS (jsonStep ⟨m, st⟩ c) := by
  rcases st with _ | ⟨f, rest⟩
  · exact absurd rfl h
  · cases m with
    | value => exact closedS_startValue (f :: rest) c (by simp)
    | objStart =>
      cases f <;> (simp only [jsonStep]; split_ifs <;> simp [ClosedS])
    | objKey =>
      simp only [jsonStep]; split_ifs <;> simp [ClosedS]
    | objColon =>
      simp only [jsonStep]; split_ifs <;> simp [ClosedS]
    | arrStart =>
      cases f <;> (simp only [jsonStep]; split_ifs <;>
        first
        | exact closedS_startValue _ c (by simp)
        | simp [ClosedS])
    | afterValue => exact closedS_stepAfter (f :: rest) c
    | strBody isKey =>
      simp only [jsonStep]; split_ifs <;> simp [ClosedS]
    | strEsc isKey =>
      simp only [jsonStep]; split_ifs <;> simp [ClosedS]
    | strU isKey k =>
      simp only [jsonStep]; split_ifs <;> simp [ClosedS]
    | numNeg =>
      simp only [jsonStep]; split_ifs <;> simp [ClosedS]
    | numZero =>
      simp only [jsonStep]; split_ifs <;>
        first
        | exact closedS_stepAfter _ c
        | simp [ClosedS]
    | numInt =>
      simp only [jsonStep]; split_ifs <;>
        first
        | exact closedS_stepAfter _ c
        | simp [ClosedS]
    | numDot =>
      simp only [jsonStep]; split_ifs <;> simp [ClosedS]
    | numFrac =>
      simp only [jsonStep]; split_ifs <;>
        first
        | exact closedS_stepAfter _ c
        | simp [ClosedS]
    | numE =>
      simp only [jsonStep]; split_ifs <;> simp [ClosedS]
    | numESign =>
      simp only [jsonStep]; split_ifs <;> simp [ClosedS]
    | numExp =>
      simp only [jsonStep]; split_ifs <;>
        first
        | exact closedS_stepAfter _ c
        | simp [ClosedS]
    | lit litRest =>
      cases litRest with
      | nil => simp [jsonStep, ClosedS]
      | cons r rs =>
        simp only [jsonStep]; split_ifs <;> simp [ClosedS]
    | reject => simp [jsonStep, ClosedS]

/-- Helper: `ClosedS` is preserved by every machine step. -/
theorem closedS_jsonStep (s : JState) (c : Char) (h : ClosedS s) :
    ClosedS (jsonStep s c) := by
  obtain ⟨m, st⟩ := s
  rcases hst : st with _ | ⟨f, rest⟩
  · subst hst
    simp only [ClosedS] at h
    rcases h with hne | hm | hm
    · exact absurd rfl hne
    · subst hm
      exact closedS_stepAfter [] c
    · subst hm
      simp [jsonStep, ClosedS]
  · subst hst
    exact closedS_jsonStep_of_stack_ne m (f :: rest) c (by simp)

/-- Helper: `ClosedS` is preserved by a whole run. -/
theorem closedS_jsonRun (s : JState) (l : List Char) (h : ClosedS s) :
    ClosedS (jsonRun s l) := by
  induction l generalizing s with
  | nil => exact h
  | cons c cs ih =>
    rw [jsonRun_cons]
    exact ih _ (closedS_jsonStep s c h)

/-- Helper: an accepted text starting with `{` ends the machine in
`afterValue` with an empty stack. -/
theorem jsonRun_obj_final (l : List Char) (hhead : l.head? = some '{')
    (hacc : jsonAccept l = true) : jsonRun jsonInit l = ⟨.afterValue, []⟩ := by
  rcases l with _ | ⟨c, cs⟩
  · simp at hhead
  · have hc : c = '{' := by simpa using hhead
    subst hc
    have h1 : jsonStep jsonInit '{' = ⟨.objStart, [.obj]⟩ := by decide
    have h2 : jsonRun jsonInit ('{' :: cs) = jsonRun ⟨.objStart, [.obj]⟩ cs := by
      rw [jsonRun_cons, h1]
    have hclosed : ClosedS (jsonRun ⟨.objStart, [.obj]⟩ cs) :=
      closedS_jsonRun _ cs (by simp [ClosedS])
    simp only [jsonAccept] at hacc
    rw [h2] at hacc
    rw [h2]
    generalize hF : jsonRun ⟨.objStart, [.obj]⟩ cs = F at hacc hclosed
    obtain ⟨m, st⟩ := F
    simp only [jsonIsAccept, Bool.and_eq_true, decide_eq_true_eq,
      Bool.or_eq_true] at hacc
    obtain ⟨hstack, hmode⟩ := hacc
    simp only [ClosedS, hstack] at hclosed
    rcases hclosed with hne | hm | hm
    · simp at hne
    · simp [hstack, hm]
    · rw [hm] at hmode
      simp at hmode

/-- Helper: JSON whitespace is Go whitespace. -/
theorem isJsonWs_imp_isSpaceGo (c : Char) (h : isJsonWs c = true) :
    isSpaceGo c = true := by
  simp only [isJsonWs, Bool.or_eq_true, decide_eq_true_eq] at h
  rcases h with ((h1 | h1) | h1) | h1 <;> simp [isSpaceGo, h1]

/-- Helper: no proper prefix of an accepted object text is itself
accepted, as long as the remainder starts with a non-whitespace character
(which every trimmed fragment does). -/
theorem jsonAccept_proper_prefix_false (p rest : List Char)
    (hp : p.head? = some '{') (hrne : rest ≠ [])
    (hrhead : ∀ c, rest.head? = some c → isSpaceGo c = false)
    (hacc : jsonAccept (p ++ rest) = true) :
    jsonAccept p = false := by
  by_contra hcon
  have hpacc : jsonAccept p = true := by
    cases h : jsonAccept p
    · exact absurd h hcon
    · rfl
  have hfin : jsonRun jsonInit p = ⟨.afterValue, []⟩ :=
    jsonRun_obj_final p hp hpacc
  rcases rest with _ | ⟨c, cs⟩
  · exact hrne rfl
  · have hws : isSpaceGo c = false := hrhead c rfl
    have hjws : isJsonWs c = false := by
      cases h : isJsonWs c
      · rfl
      · exact absurd (isJsonWs_imp_isSpaceGo c h) (by simp [hws])
    have hstep : jsonStep ⟨.afterValue, []⟩ c = ⟨.reject, []⟩ := by
      simp [jsonStep, stepAfter, hjws]
    have hrun : jsonRun jsonInit (p ++ c :: cs) = ⟨.reject, []⟩ := by
      rw [jsonRun_append, hfin, jsonRun_cons, hstep, jsonRun_reject]
    simp only [jsonAccept] at hacc
    rw [hrun] at hacc
    simp [jsonIsAccept] at hacc

/-! ## Reader lemmas -/

/-- Helper: once the reader has errored, a fragment changes nothing. -/
theorem processFragment_absorb (m : Nat) (st : ReaderState) (f : List Char)
    (h : st.errorOut.isSome = true) : processFragment m st f = st := by
  simp [processFragment, h]

/-- Helper: once the reader has errored, a line changes nothing. -/
theorem processLine_absorb (m : Nat) (st : ReaderState) (l : List Char)
    (h : st.errorOut.isSome = true) : processLine m st l = st := by
  simp [processLine, h]

/-- Helper: once the reader has errored, the whole loop changes nothing. -/
theorem foldl_processLine_absorb (m : Nat) (st : ReaderState)
    (lines : List (List Char)) (h : st.errorOut.isSome = true) :
    lines.foldl (processLine m) st = st := by
  induction lines with
  | nil => rfl
  | cons l ls ih =>
    rw [List.foldl_cons, processLine_absorb m st l h]
    exact ih

/-- Helper: empty fragments are skipped. -/
theorem foldl_processFragment_nils (m : Nat) (fs : List (List Char))
    (st : ReaderState) (h : ∀ f ∈ fs, f = []) :
    fs.foldl (processFragment m) st = st := by
  induction fs with
  | nil => rfl
  | cons f fs' ih =>
    have hf : f = [] := h f (by simp)
    subst hf
    have hstep : processFragment m st [] = st := by
      simp [processFragment, trimGo]
    rw [List.foldl_cons, hstep]
    exact ih (fun g hg => h g (by simp [hg]))

/-- Helper: a trim-invariant nonempty fragment starts with non-whitespace. -/
theorem trimGo_head_not_space (f : List Char) (ht : trimGo f = f) (c : Char)
    (hc : f.head? = some c) : isSpaceGo c = false := by
  rcases f with _ | ⟨a, t⟩
  · simp at hc
  · have ha : a = c := by simpa using hc
    subst ha
    cases hs : isSpaceGo a
    · rfl
    · exfalso
      have h1 : trimGo (a :: t) =
          ((t.dropWhile isSpaceGo).reverse.dropWhile isSpaceGo).reverse := by
        simp [trimGo, List.dropWhile_cons, hs]
      have h2 : (trimGo (a :: t)).length ≤ t.length := by
        rw [h1]
        calc ((t.dropWhile isSpaceGo).reverse.dropWhile isSpaceGo).reverse.length
            = ((t.dropWhile isSpaceGo).reverse.dropWhile isSpaceGo).length := by simp
          _ ≤ (t.dropWhile isSpaceGo).reverse.length :=
              (List.dropWhile_sublist _).length_le
          _ = (t.dropWhile isSpaceGo).length := by simp
          _ ≤ t.length := (List.dropWhile_sublist _).length_le
      rw [ht] at h2
      rw [List.length_cons] at h2
      omega

/-- Helper: the concatenation of trim-invariant fragments starts with
non-whitespace when nonempty. -/
theorem flatten_head_not_space (fs : List (List Char))
    (ht : ∀ f ∈ fs, trimGo f = f) :
    ∀ c, fs.flatten.head? = some c → isSpaceGo c = false := by
  induction fs with
  | nil => intro c hc; simp at hc
  | cons f fs' ih =>
    intro c hc
    rcases hf : f with _ | ⟨a, t⟩
    · subst hf
      exact ih (fun g hg => ht g (by simp [hg])) c (by simpa using hc)
    · have hca : a = c := by
        rw [hf] at hc
        simpa [List.flatten_cons] using hc
      subst hca
      exact trimGo_head_not_space f (ht f (by simp)) a (by simp [hf])

/-- Helper: the head of a concatenation with a nonempty left part. -/
theorem headq_append_left {α : Type} (l r : List α) (h : l ≠ []) :
    (l ++ r).head? = l.head? := by
  rcases l with _ | ⟨a, t⟩
  · exact absurd rfl h
  · rfl

/-- Helper: splitting a newline-free fragment is the identity. -/
theorem splitOnNewline_eq_single (l : List Char) (hn : '\n' ∉ l) :
    splitOnNewline l = [l] := by
  induction l with
  | nil => rfl
  | cons c cs ih =>
    have hc : ¬ (c = '\n') := by
      intro h
      exact hn (by simp [h])
    have hcs : '\n' ∉ cs := fun h => hn (by simp [h])
    simp only [splitOnNewline, ih hcs]
    simp [hc]

/-- Helper: trimming only drops characters. -/
theorem mem_of_mem_trimGo (c : Char) (l : List Char) (h : c ∈ trimGo l) :
    c ∈ l := by
  simp only [trimGo, List.mem_reverse] at h
  have h1 : c ∈ (l.dropWhile isSpaceGo).reverse :=
    (List.dropWhile_sublist _).subset h
  rw [List.mem_reverse] at h1
  exact (List.dropWhile_sublist _).subset h1

/-- Helper: the head surviving a `dropWhile` fails the test. -/
theorem dropWhile_head_false (p : Char → Bool) :
    ∀ (l : List Char) (c : Char), (l.dropWhile p).head? = some c →
      p c = false := by
  intro l
  induction l with
  | nil =>
    intro c hc
    simp at hc
  | cons a t ih =>
    intro c hc
    cases hpa : p a
    · rw [List.dropWhile_cons, hpa] at hc
      have hac : a = c := by simpa using hc
      subst hac
      exact hpa
    · rw [List.dropWhile_cons, hpa] at hc
      exact ih c hc

/-- Helper: a list whose head fails the test is untouched by `dropWhile`. -/
theorem dropWhile_eq_self_of_head (p : Char → Bool) (l : List Char)
    (h : ∀ c, l.head? = some c → p c = false) : l.dropWhile p = l := by
  rcases l with _ | ⟨a, t⟩
  · rfl
  · simp [List.dropWhile_cons, h a rfl]

/-- Helper: `dropWhile` is idempotent. -/
theorem dropWhile_idem (p : Char → Bool) (l : List Char) :
    (l.dropWhile p).dropWhile p = l.dropWhile p :=
  dropWhile_eq_self_of_head p _ (dropWhile_head_false p l)

/-- Helper: `dropWhile` removes an initial block: the rest is a suffix. -/
theorem dropWhile_suffix_exists (p : Char → Bool) :
    ∀ l : List Char, ∃ t : List Char, l = t ++ l.dropWhile p := by
  intro l
  induction l with
  | nil => exact ⟨[], rfl⟩
  | cons a m ih =>
    cases hpa : p a
    · exact ⟨[], by simp [List.dropWhile_cons, hpa]⟩
    · obtain ⟨t, ht⟩ := ih
      refine ⟨a :: t, ?_⟩
      rw [List.dropWhile_cons, hpa, if_pos rfl, List.cons_append, ← ht]

/-- Helper: the trimmed text begins the left-trimmed text. -/
theorem trimGo_append_exists (l : List Char) :
    ∃ t : List Char, l.dropWhile isSpaceGo = trimGo l ++ t := by
  obtain ⟨t, ht⟩ :=
    dropWhile_suffix_exists isSpaceGo ((l.dropWhile isSpaceGo).reverse)
  refine ⟨t.reverse, ?_⟩
  have h := congrArg List.reverse ht
  rw [List.reverse_reverse, List.reverse_append] at h
  exact h

/-- Helper: a trimmed text starts with non-whitespace. -/
theorem trimGo_head_false (l : List Char) (c : Char)
    (h : (trimGo l).head? = some c) : isSpaceGo c = false := by
  obtain ⟨t, ht⟩ := trimGo_append_exists l
  have hne : trimGo l ≠ [] := by
    intro he
    rw [he] at h
    simp at h
  have hh : (l.dropWhile isSpaceGo).head? = some c := by
    rw [ht, headq_append_left _ _ hne]
    exact h
  exact dropWhile_head_false isSpaceGo l c hh

/-- Helper: `TrimSpace` is idempotent. -/
theorem trimGo_idem (l : List Char) : trimGo (trimGo l) = trimGo l := by
  have hA : (trimGo l).dropWhile isSpaceGo = trimGo l :=
    dropWhile_eq_self_of_head isSpaceGo _ (trimGo_head_false l)
  have hB : (trimGo l).reverse.dropWhile isSpaceGo = (trimGo l).reverse := by
    have h1 : (trimGo l).reverse =
        ((l.dropWhile isSpaceGo).reverse).dropWhile isSpaceGo := by
      simp [trimGo]
    rw [h1]
    exact dropWhile_idem isSpaceGo _
  show (((trimGo l).dropWhile isSpaceGo).reverse.dropWhile isSpaceGo).reverse =
    trimGo l
  rw [hA, hB, List.reverse_reverse]

/-- Helper: the fragment step only sees the trimmed fragment. -/
theorem processFragment_trim (m : Nat) (st : ReaderState) (l : List Char) :
    processFragment m st (trimGo l) = processFragment m st l := by
  simp only [processFragment, trimGo_idem]

/-- Helper: on a newline-free line, the line step is exactly the fragment
step. -/
theorem processLine_eq_processFragment (m : Nat) (st : ReaderState)
    (l : List Char) (hn : '\n' ∉ l) :
    processLine m st l = processFragment m st l := by
  by_cases herr : st.errorOut.isSome = true
  · rw [processLine_absorb m st l herr, processFragment_absorb m st l herr]
  · have herr' : st.errorOut.isSome = false := by simpa using herr
    by_cases hte : trimGo l = []
    · simp [processLine, processFragment, herr', hte]
    · have hn' : '\n' ∉ trimGo l := fun h => hn (mem_of_mem_trimGo _ _ h)
      have hsingle : splitOnNewline (trimGo l) = [trimGo l] :=
        splitOnNewline_eq_single _ hn'
      calc processLine m st l = processFragment m st (trimGo l) := by
            simp [processLine, herr', hte, hsingle]
        _ = processFragment m st l := processFragment_trim m st l

/-- Helper: whole-loop version of the previous lemma. -/
theorem foldl_processLine_eq_processFragment (m : Nat) :
    ∀ (lines : List (List Char)) (st : ReaderState),
      (∀ l ∈ lines, '\n' ∉ l) →
      lines.foldl (processLine m) st = lines.foldl (processFragment m) st := by
  intro lines
  induction lines with
  | nil => intro st _; rfl
  | cons l ls ih =>
    intro st hp
    rw [List.foldl_cons, List.foldl_cons,
      processLine_eq_processFragment m st l (hp l (by simp))]
    exact ih _ (fun g hg => hp g (by simp [hg]))

/-- Helper: the fragment loop only sees the trimmed fragments. -/
theorem foldl_processFragment_map_trim (m : Nat) :
    ∀ (fs : List (List Char)) (st : ReaderState),
      fs.foldl (processFragment m) st =
        (fs.map trimGo).foldl (processFragment m) st := by
  intro fs
  induction fs with
  | nil => intro st; rfl
  | cons f fs' ih =>
    intro st
    rw [List.map_cons, List.foldl_cons, List.foldl_cons, processFragment_trim]
    exact ih _

/-- Helper: trimming the lines of a nested list commutes with flattening. -/
theorem map_trim_flatten :
    ∀ fss : List (List (List Char)),
      (fss.flatten).map trimGo = (fss.map (List.map trimGo)).flatten := by
  intro fss
  induction fss with
  | nil => rfl
  | cons fs fss' ih =>
    rw [List.flatten_cons, List.map_append, ih, List.map_cons,
      List.flatten_cons]

/-- Helper: `Forall2` transported along a map on the left. -/
theorem forall2_map_left {α β γ : Type} (f : α → γ) (R : γ → β → Prop)
    (S : α → β → Prop) (himp : ∀ a b, S a b → R (f a) b) :
    ∀ {l1 : List α} {l2 : List β}, List.Forall₂ S l1 l2 →
      List.Forall₂ R (l1.map f) l2 := by
  intro l1 l2 h
  induction h with
  | nil => exact List.Forall₂.nil
  | @cons a b l1' l2' hS _ ih => exact List.Forall₂.cons (himp a b hS) ih

/-- Helper: left members of a `Forall2` have related right members. -/
theorem forall2_exists_right {α β : Type} {R : α → β → Prop} :
    ∀ {l1 : List α} {l2 : List β}, List.Forall₂ R l1 l2 →
      ∀ a ∈ l1, ∃ b ∈ l2, R a b := by
  intro l1 l2 h
  induction h with
  | nil => intro a ha; simp at ha
  | cons hR hrest ih =>
    intro a ha
    rcases List.mem_cons.mp ha with h1 | h1
    · subst h1
      exact ⟨_, by simp, hR⟩
    · obtain ⟨b, hb, hRb⟩ := ih a h1
      exact ⟨b, by simp [hb], hRb⟩

/-- Helper: a complete JSON object text unmarshals into a map. -/
theorem jsonObjectComplete_unmarshal (o : List Char)
    (h : jsonObjectComplete o = true) : unmarshalMapOk o = true := by
  simp only [jsonObjectComplete, Bool.and_eq_true, decide_eq_true_eq] at h
  obtain ⟨hacc, hhead⟩ := h
  rcases o with _ | ⟨c, t⟩
  · simp at hhead
  · have hc : c = '{' := by simpa using hhead
    subst hc
    have hws : isJsonWs '{' = false := by decide
    simp [unmarshalMapOk, hacc, firstNonWs, List.dropWhile_cons, hws]

/-- Helper: feeding all fragments of one complete object (that fits in the
buffer cap) into the reader from a clean buffer emits exactly that object
and resets the buffer, with no error. -/
theorem processFragments_one_object (m : Nat) (o : List Char)
    (hobj : jsonObjectComplete o = true) (hcap : o.length ≤ m) :
    ∀ (fs : List (List Char)) (buf0 : List Char) (em0 : List (List Char)),
      (∀ f ∈ fs, trimGo f = f) →
      buf0 ++ fs.flatten = o →
      fs.flatten ≠ [] →
      fs.foldl (processFragment m) ⟨buf0, em0, none⟩ =
        ⟨[], em0 ++ [o], none⟩ := by
  intro fs
  induction fs with
  | nil =>
    intro buf0 em0 _ _ hne
    simp at hne
  | cons f fs' ih =>
    intro buf0 em0 htr hcat hne
    have htrf : trimGo f = f := htr f (by simp)
    by_cases hfe : f = []
    · subst hfe
      have hskip : processFragment m ⟨buf0, em0, none⟩ [] = ⟨buf0, em0, none⟩ := by
        simp [processFragment, trimGo]
      rw [List.foldl_cons, hskip]
      refine ih buf0 em0 (fun g hg => htr g (by simp [hg])) ?_ ?_
      · simpa using hcat
      · simpa using hne
    · have hbufne : buf0 ++ f ≠ [] := by simp [hfe]
      by_cases hrest : fs'.flatten = []
      · have ho : buf0 ++ f = o := by
          rw [← hcat]
          simp [hrest]
        have hlen := congrArg List.length ho
        simp only [List.length_append] at hlen
        have hsize : ¬ (m < buf0.length + f.length) := by omega
        have hparse : unmarshalMapOk (buf0 ++ f) = true := by
          rw [ho]
          exact jsonObjectComplete_unmarshal o hobj
        have hstep : processFragment m ⟨buf0, em0, none⟩ f =
            ⟨[], em0 ++ [buf0 ++ f], none⟩ := by
          simp [processFragment, htrf, hfe, hsize, hparse]
        rw [List.foldl_cons, hstep,
          foldl_processFragment_nils m fs' _ (List.flatten_eq_nil_iff.mp hrest),
          ho]
      · have hco : (buf0 ++ f) ++ fs'.flatten = o := by
          rw [← hcat]
          simp
        have hlen := congrArg List.length hco
        simp only [List.length_append] at hlen
        have hpos := List.length_pos.mpr hrest
        have hsize : ¬ (m < buf0.length + f.length) := by omega
        have hone : o.head? = some '{' := by
          have h := hobj
          simp only [jsonObjectComplete, Bool.and_eq_true, decide_eq_true_eq] at h
          exact h.2
        have hhead : (buf0 ++ f).head? = some '{' := by
          rw [← hco] at hone
          rwa [headq_append_left _ _ hbufne] at hone
        have hacc : jsonAccept ((buf0 ++ f) ++ fs'.flatten) = true := by
          rw [hco]
          have h := hobj
          simp only [jsonObjectComplete, Bool.and_eq_true, decide_eq_true_eq] at h
          exact h.1
        have hnoacc : jsonAccept (buf0 ++ f) = false :=
          jsonAccept_proper_prefix_false _ _ hhead hrest
            (flatten_head_not_space fs' (fun g hg => (htr g (by simp [hg]))))
            hacc
        have hparse : unmarshalMapOk (buf0 ++ f) = false := by
          simp [unmarshalMapOk, hnoacc]
        have hstep : processFragment m ⟨buf0, em0, none⟩ f =
            ⟨buf0 ++ f, em0, none⟩ := by
          simp [processFragment, htrf, hfe, hsize, hparse]
        rw [List.foldl_cons, hstep]
        exact ih (buf0 ++ f) em0 (fun g hg => htr g (by simp [hg])) hco hrest

/-- Helper: feeding the fragments of a list of complete objects emits
exactly those objects in order. -/
theorem processFragments_objects (m : Nat) (objs : List (List Char))
    (frags : List (List (List Char)))
    (hrel : List.Forall₂ (fun fs o => fs.flatten = o ∧
        ∀ f ∈ fs, trimGo f = f ∧ '\n' ∉ f) frags objs) :
    ∀ em0 : List (List Char),
      (∀ o ∈ objs, jsonObjectComplete o = true) →
      (∀ o ∈ objs, o.length ≤ m) →
      frags.flatten.foldl (processFragment m) ⟨[], em0, none⟩ =
        ⟨[], em0 ++ objs, none⟩ := by
  induction hrel with
  | nil =>
    intro em0 _ _
    simp
  | @cons fs o frags' objs' hfo hrel' ih =>
    intro em0 hobj hcap
    obtain ⟨hflat, htrim⟩ := hfo
    rw [List.flatten_cons, List.foldl_append]
    by_cases hne : fs.flatten = []
    · exfalso
      have h0 := hobj o (by simp)
      rw [← hflat, hne] at h0
      exact absurd h0 (by decide)
    · rw [processFragments_one_object m o (hobj o (by simp)) (hcap o (by simp))
        fs [] em0 (fun f hf => (htrim f hf).1) (by simpa using hflat) hne]
      rw [ih (em0 ++ [o]) (fun g hg => hobj g (by simp [hg]))
        (fun g hg => hcap g (by simp [hg]))]
      simp

/-! ## C2: the accumulation-buffer cap -/

/-- C2: whenever the reader's JSON accumulation buffer grows past the
configured maximum buffer size without a successful parse, the reader
emits exactly one `DecodeError` on its error channel (the error slot goes
from empty to `decodeError` in this single step), emits no message at this
step, and stops: any further input leaves the state untouched, so no
further messages or errors are produced. -/
theorem readMessages_buffer_cap (maxBufferSize : Nat) (st : ReaderState)
    (frag : List Char)
    (hrun : st.errorOut = none)
    (hne : trimGo frag ≠ [])
    (hover : maxBufferSize < (st.jsonBuffer ++ trimGo frag).length) :
    (processFragment maxBufferSize st frag).errorOut = some .decodeError ∧
    (processFragment maxBufferSize st frag).emitted = st.emitted ∧
    ∀ lines : List (List Char),
      lines.foldl (processLine maxBufferSize)
        (processFragment maxBufferSize st frag) =
      processFragment maxBufferSize st frag := by
  have hover' : maxBufferSize < st.jsonBuffer.length + (trimGo frag).length := by
    have h := hover
    rw [List.length_append] at h
    exact h
  have hres : processFragment maxBufferSize st frag =
      { st with jsonBuffer := st.jsonBuffer ++ trimGo frag,
                errorOut := some .decodeError } := by
    simp [processFragment, hrun, hne, hover']
  refine ⟨by rw [hres], by rw [hres], ?_⟩
  intro lines
  exact foldl_processLine_absorb maxBufferSize
    (processFragment maxBufferSize st frag) lines (by rw [hres]; rfl)

/-- C2 witness: an 8-byte object against a 4-byte cap errors with an
untouched emission list, and a subsequent line is ignored. -/
theorem readMessages_buffer_cap_witness :
    (processFragment 4 readerInit (("\x7b\"a\":1\x7d").data)).errorOut =
      some .decodeError ∧
    (processFragment 4 readerInit (("\x7b\"a\":1\x7d").data)).emitted = [] ∧
    (readMessages 4 [("\x7b\"a\":1\x7d").data, ("\x7b\x7d").data]).emitted = [] := by
  have h := readMessages_buffer_cap 4 readerInit (("\x7b\"a\":1\x7d").data)
    rfl (by decide) (by decide)
  refine ⟨h.1, h.2.1, ?_⟩
  have habs := h.2.2 [("\x7b\x7d").data]
  have hred : readMessages 4 [("\x7b\"a\":1\x7d").data, ("\x7b\x7d").data] =
      [("\x7b\x7d").data].foldl (processLine 4)
        (processFragment 4 readerInit (("\x7b\"a\":1\x7d").data)) := by
    decide
  rw [hred, habs, h.2.1]
  rfl

/-! ## C1: the framer emits exactly the stream's objects, in order -/

/-- C1 counterexample: a single well-formed JSON object longer than the
configured maximum buffer size (here 4 bytes, via the `MaxBufferSize`
option) is never emitted — the reader stops with a `DecodeError` — so the
claim fails as stated, without a size bound on the objects. -/
theorem readMessages_oversize_counterexample :
    jsonObjectComplete (("\x7b\"a\":1\x7d").data) = true ∧
    (readMessages 4 [("\x7b\"a\":1\x7d").data]).emitted = [] ∧
    (readMessages 4 [("\x7b\"a\":1\x7d").data]).errorOut =
      some .decodeError := by
  decide

/-- C1 (amended): for every stdout stream formed by concatenating N
well-formed JSON objects, each at most the configured maximum buffer size
long, split into scanner fragments by newline placements that never fall
inside string literals (each fragment is newline-free, and each object is
reconstructed by concatenating its fragments after the reader's
per-fragment whitespace trim — outside string literals that trim removes
only insignificant whitespace, so the assembled text parses to the same
JSON value as the source object), the reader emits exactly the N objects,
in the original order, with no error and an empty final buffer. -/
theorem readMessages_frames_objects (m : Nat) (objs : List (List Char))
    (frags : List (List (List Char)))
    (hrel : List.Forall₂ (fun fs o => (fs.map trimGo).flatten = o ∧
        ∀ f ∈ fs, '\n' ∉ f) frags objs)
    (hobj : ∀ o ∈ objs, jsonObjectComplete o = true)
    (hcap : ∀ o ∈ objs, o.length ≤ m) :
    readMessages m frags.flatten = ⟨[], objs, none⟩ := by
  have hnl : ∀ l ∈ frags.flatten, '\n' ∉ l := by
    intro l hl
    rw [List.mem_flatten] at hl
    obtain ⟨fs, hfs, hlf⟩ := hl
    obtain ⟨o, _, hR⟩ := forall2_exists_right hrel fs hfs
    exact hR.2 l hlf
  have hrel' : List.Forall₂ (fun fs o => fs.flatten = o ∧
      ∀ f ∈ fs, trimGo f = f ∧ '\n' ∉ f) (frags.map (List.map trimGo)) objs := by
    refine forall2_map_left (List.map trimGo) _ _ ?_ hrel
    intro fs o hS
    refine ⟨hS.1, ?_⟩
    intro g hg
    rw [List.mem_map] at hg
    obtain ⟨f, hf, hgf⟩ := hg
    subst hgf
    exact ⟨trimGo_idem f, fun h => hS.2 f hf (mem_of_mem_trimGo _ _ h)⟩
  unfold readMessages readerInit
  rw [foldl_processLine_eq_processFragment m frags.flatten _ hnl,
    foldl_processFragment_map_trim m frags.flatten _, map_trim_flatten frags]
  have h :=
    processFragments_objects m objs (frags.map (List.map trimGo)) hrel' []
      hobj hcap
  simpa using h

/-- C1 witness: the object `{"a":1}` cut right next to the insignificant
space of `{"a": 1}` (fragments `{"a":` and ` 1}`), followed by `{}` on its
own fragment, yields exactly those two objects, in order. -/
theorem readMessages_frames_objects_witness :
    readMessages 100
        [("\x7b\"a\":").data, (" 1\x7d").data, ("\x7b\x7d").data] =
      ⟨[], [("\x7b\"a\":1\x7d").data, ("\x7b\x7d").data], none⟩ := by
  have h := readMessages_frames_objects 100
    [("\x7b\"a\":1\x7d").data, ("\x7b\x7d").data]
    [[("\x7b\"a\":").data, (" 1\x7d").data], [("\x7b\x7d").data]]
    (List.Forall₂.cons (by refine ⟨by decide, ?_⟩; decide)
      (List.Forall₂.cons (by refine ⟨by decide, ?_⟩; decide)
        List.Forall₂.nil))
    (by decide) (by decide)
  simpa using h

/-! ## C3: the write mutex makes concurrent writes contiguous -/

/-- Helper: pushing the next element extends a `take` by one. -/
theorem take_push {α : Type} :
    ∀ (l : List α) (k : Nat) (d : α), k < l.length →
      l.take k ++ [l.getD k d] = l.take (k + 1) := by
  intro l
  induction l with
  | nil =>
    intro k d h
    simp at h
  | cons a t ih =>
    intro k d h
    cases k with
    | zero => simp
    | succ k' =>
      rw [List.take_succ_cons, List.getD_cons_succ, List.take_succ_cons,
        List.cons_append, ih k' d (by simpa using h)]

/-- Helper: the invariant holds initially. -/
theorem writeInv_init (a b : List Char) : WriteInv a b writeInit := by
  simp [WriteInv, writeInit]

/-- Helper: every interleaving step preserves the invariant. -/
theorem writeInv_step (a b : List Char) (s s' : WriteSysState)
    (hstep : WriteStep a b s s') (hinv : WriteInv a b s) : WriteInv a b s' := by
  obtain ⟨own, pa, pb, out⟩ := s
  cases hstep with
  | lockA h1 h2 =>
    simp only at h1 h2
    subst h1; subst h2
    simp only [WriteInv] at hinv ⊢
    obtain ⟨_, hpb, hout⟩ := hinv
    rcases hpb with hpb | hpb <;> subst hpb
    · refine ⟨by omega, by omega, Or.inl ?_⟩
      simpa using hout.elim id id
    · refine ⟨by omega, by omega, Or.inr ?_⟩
      have hb : b.take (b.length + 1) = b := List.take_of_length_le (by omega)
      have h0 : out = b := by
        rcases hout with h | h
        · simpa [hb] using h
        · simpa [hb] using h
      simpa [hb] using h0
  | emitA h1 h2 h3 =>
    simp only at h1 h2 h3
    subst h1
    simp only [WriteInv] at hinv ⊢
    obtain ⟨hlo, hhi, hout⟩ := hinv
    have hidx : pa - 1 < a.length := by omega
    have hpush := take_push a (pa - 1) ' ' hidx
    have hstep1 : pa - 1 + 1 = pa := by omega
    rw [hstep1] at hpush
    have hpa1 : pa + 1 - 1 = pa := by omega
    refine ⟨by omega, by omega, ?_⟩
    rcases hout with ⟨hpb, hco⟩ | ⟨hpb, hco⟩
    · refine Or.inl ⟨hpb, ?_⟩
      rw [hco, hpa1]
      exact hpush
    · refine Or.inr ⟨hpb, ?_⟩
      rw [hco, hpa1, List.append_assoc, hpush]
  | unlockA h1 h2 =>
    simp only at h1 h2
    subst h1; subst h2
    simp only [WriteInv] at hinv ⊢
    obtain ⟨hlo, hhi, hout⟩ := hinv
    have ha1 : a.take a.length = a := List.take_length a
    have ha2 : a.take (a.length + 1) = a := List.take_of_length_le (by omega)
    rcases hout with ⟨hpb, hco⟩ | ⟨hpb, hco⟩ <;> subst hpb
    · exact ⟨by simp, by simp, Or.inl (by simpa [ha1, ha2] using hco)⟩
    · refine ⟨by simp, by simp, Or.inr ?_⟩
      have hb : b.take (b.length + 1) = b := List.take_of_length_le (by omega)
      simpa [ha1, ha2, hb] using hco
  | lockB h1 h2 =>
    simp only at h1 h2
    subst h1; subst h2
    simp only [WriteInv] at hinv ⊢
    obtain ⟨hpa, _, hout⟩ := hinv
    rcases hpa with hpa | hpa <;> subst hpa
    · refine ⟨by omega, by omega, Or.inl ?_⟩
      simpa using hout.elim id id
    · refine ⟨by omega, by omega, Or.inr ?_⟩
      have ha : a.take (a.length + 1) = a := List.take_of_length_le (by omega)
      have h0 : out = a := by
        rcases hout with h | h
        · simpa [ha] using h
        · simpa [ha] using h
      simpa [ha] using h0
  | emitB h1 h2 h3 =>
    simp only at h1 h2 h3
    subst h1
    simp only [WriteInv] at hinv ⊢
    obtain ⟨hlo, hhi, hout⟩ := hinv
    have hidx : pb - 1 < b.length := by omega
    have hpush := take_push b (pb - 1) ' ' hidx
    have hstep1 : pb - 1 + 1 = pb := by omega
    rw [hstep1] at hpush
    have hpb1 : pb + 1 - 1 = pb := by omega
    refine ⟨by omega, by omega, ?_⟩
    rcases hout with ⟨hpa, hco⟩ | ⟨hpa, hco⟩
    · refine Or.inl ⟨hpa, ?_⟩
      rw [hco, hpb1]
      exact hpush
    · refine Or.inr ⟨hpa, ?_⟩
      rw [hco, hpb1, List.append_assoc, hpush]
  | unlockB h1 h2 =>
    simp only at h1 h2
    subst h1; subst h2
    simp only [WriteInv] at hinv ⊢
    obtain ⟨hlo, hhi, hout⟩ := hinv
    have hb1 : b.take b.length = b := List.take_length b
    have hb2 : b.take (b.length + 1) = b := List.take_of_length_le (by omega)
    rcases hout with ⟨hpa, hco⟩ | ⟨hpa, hco⟩ <;> subst hpa
    · exact ⟨by simp, by simp, Or.inr (by simpa [hb1, hb2] using hco)⟩
    · refine ⟨by simp, by simp, Or.inl ?_⟩
      have ha : a.take (a.length + 1) = a := List.take_of_length_le (by omega)
      simpa [hb1, hb2, ha] using hco

/-- Helper: the invariant holds in every reachable state. -/
theorem writeInv_reachable (a b : List Char) (s : WriteSysState)
    (h : WriteReachable a b s) : WriteInv a b s := by
  induction h with
  | refl => exact writeInv_init a b
  | tail hsteps hstep ih => exact writeInv_step a b _ _ hstep ih

/-- C3: for any interleaving of two concurrent `Write(a)` / `Write(b)`
calls on the subprocess transport, once both writes have completed, the
bytes on the child's stdin are `a` followed by `b` or `b` followed by `a`
— each message contiguous, never interleaved mid-message. -/
theorem write_mutex_serializes (a b : List Char) (s : WriteSysState)
    (h : WriteReachable a b s)
    (hA : s.pcA = a.length + 2) (hB : s.pcB = b.length + 2) :
    s.output = a ++ b ∨ s.output = b ++ a := by
  have hinv := writeInv_reachable a b s h
  obtain ⟨own, pa, pb, out⟩ := s
  simp only at hA hB
  subst hA; subst hB
  cases own with
  | none =>
    simp only [WriteInv] at hinv
    obtain ⟨_, _, hout⟩ := hinv
    have t1 : a.take (a.length + 1) = a := List.take_of_length_le (by omega)
    have t2 : b.take (b.length + 1) = b := List.take_of_length_le (by omega)
    rcases hout with h0 | h0
    · exact Or.inl (by simpa [t1, t2] using h0)
    · exact Or.inr (by simpa [t1, t2] using h0)
  | some v =>
    exfalso
    cases v <;>
      (simp only [WriteInv] at hinv; omega)

/-- C3 witness: with one-byte messages `x` and `y` and the schedule that
runs writer A completely and then writer B, the final stdin is `xy`. -/
theorem write_mutex_serializes_witness :
    (⟨none, 3, 3, ['x', 'y']⟩ : WriteSysState).output = ['x'] ++ ['y'] ∨
    (⟨none, 3, 3, ['x', 'y']⟩ : WriteSysState).output = ['y'] ++ ['x'] := by
  refine write_mutex_serializes ['x'] ['y'] ⟨none, 3, 3, ['x', 'y']⟩ ?_ rfl rfl
  exact Relation.ReflTransGen.head (WriteStep.lockA _ rfl rfl)
    (Relation.ReflTransGen.head (WriteStep.emitA _ rfl (by decide) (by decide))
      (Relation.ReflTransGen.head (WriteStep.unlockA _ rfl (by decide))
        (Relation.ReflTransGen.head (WriteStep.lockB _ rfl rfl)
          (Relation.ReflTransGen.head (WriteStep.emitB _ rfl (by decide) (by decide))
            (Relation.ReflTransGen.head (WriteStep.unlockB _ rfl (by decide))
              Relation.ReflTransGen.refl)))))

/-! ## C5: diverting oversized agent definitions through a temp file -/

/-- Helper: the rewrite loop acts at the first occurrence of `"--agents"`
(when that occurrence has a successor): it `set`s the successor to
`@<tempName>` and returns the successor's previous value. -/
theorem replaceAfterAgents_spec (tmp : String) :
    ∀ args : List String, "--agents" ∈ args →
      args.findIdx (· == "--agents") + 1 < args.length →
      replaceAfterAgents tmp args =
        some (args.set (args.findIdx (· == "--agents") + 1) ("@" ++ tmp),
          args.getD (args.findIdx (· == "--agents") + 1) "") := by
  intro args
  induction args with
  | nil =>
    intro hmem _
    simp at hmem
  | cons x rest ih =>
    intro hmem hidx
    by_cases hx : x = "--agents"
    · subst hx
      rcases rest with _ | ⟨v, rest'⟩
      · rw [List.findIdx_cons] at hidx
        simp at hidx
      · rw [List.findIdx_cons]
        simp [replaceAfterAgents, List.set_cons_succ, List.set_cons_zero,
          List.getD_cons_succ, List.getD_cons_zero]
    · have hmem' : "--agents" ∈ rest := by
        rcases List.mem_cons.mp hmem with h | h
        · exact absurd h.symm hx
        · exact h
      have hbx : (x == "--agents") = false := by simp [hx]
      have hfi : (x :: rest).findIdx (· == "--agents") =
          rest.findIdx (· == "--agents") + 1 := by
        rw [List.findIdx_cons, hbx]
        rfl
      have hidx' : rest.findIdx (· == "--agents") + 1 < rest.length := by
        rw [hfi] at hidx
        simpa using hidx
      have hrec := ih hmem' hidx'
      have hstep : replaceAfterAgents tmp (x :: rest) =
          (replaceAfterAgents tmp rest).map (fun pr => (x :: pr.1, pr.2)) := by
        simp only [replaceAfterAgents]
        rw [if_neg hx]
      rw [hstep, hrec, hfi]
      simp [List.set_cons_succ, List.getD_cons_succ]

/-- Helper: the first index satisfying the test is at most the position of
any known occurrence. -/
theorem findIdx_append_le (p : String → Bool) (x : String) (hx : p x = true) :
    ∀ (pre rest : List String), (pre ++ x :: rest).findIdx p ≤ pre.length := by
  intro pre
  induction pre with
  | nil =>
    intro rest
    simp [List.findIdx_cons, hx]
  | cons y pre' ih =>
    intro rest
    rw [List.cons_append, List.findIdx_cons]
    cases hpy : p y
    · simpa using Nat.succ_le_succ (ih rest)
    · simp

/-- Helper: the first index satisfying the test is exactly the position
of an occurrence none of whose predecessors satisfies it. -/
theorem findIdx_append_eq (p : String → Bool) (x : String) (hx : p x = true) :
    ∀ (pre rest : List String), (∀ y ∈ pre, p y = false) →
      (pre ++ x :: rest).findIdx p = pre.length := by
  intro pre
  induction pre with
  | nil =>
    intro rest _
    simp [List.findIdx_cons, hx]
  | cons y pre' ih =>
    intro rest hall
    have hpy : p y = false := hall y (by simp)
    have hrec := ih rest (fun z hz => hall z (by simp [hz]))
    rw [List.cons_append, List.findIdx_cons, hpy]
    simp [hrec]

/-- Helper: indexing one past a block of known length lands on the second
element after it. -/
theorem getD_append_succ {α : Type} (d a b : α) :
    ∀ (pre suf : List α), (pre ++ a :: b :: suf).getD (pre.length + 1) d = b := by
  intro pre
  induction pre with
  | nil => intro suf; rfl
  | cons y pre' ih =>
    intro suf
    rw [List.cons_append, List.length_cons]
    rw [List.getD_cons_succ]
    exact ih suf

/-- Helper: with a non-empty `Agents` map, the argument vector is exactly
the pre-agents blocks, then the agents flag and its JSON value, then the
trailing blocks. -/
theorem buildCommandArgs_agents_eq (o : ClaudeAgentOptions)
    (isStreaming : Bool) (promptStr settingsValue : String)
    (h : o.Agents ≠ []) :
    buildCommandArgs o isStreaming promptStr settingsValue =
      preAgentsArgs o settingsValue ++ "--agents" :: agentsJSON o.Agents ::
        (settingSourcesArgs o ++ pluginsArgs o ++ extraArgsArgs o ++
          inputModeArgs isStreaming promptStr) := by
  rw [buildCommandArgs, agentsArgs, if_neg h, preAgentsArgs]
  simp [List.append_assoc]

/-- Helper: with a non-empty `Agents` map, the argument vector splits
around the agents flag and its JSON value. -/
theorem buildCommandArgs_agents_split (o : ClaudeAgentOptions)
    (isStreaming : Bool) (promptStr settingsValue : String)
    (h : o.Agents ≠ []) :
    ∃ pre suf : List String,
      buildCommandArgs o isStreaming promptStr settingsValue =
        pre ++ "--agents" :: agentsJSON o.Agents :: suf :=
  ⟨preAgentsArgs o settingsValue,
    settingSourcesArgs o ++ pluginsArgs o ++ extraArgsArgs o ++
      inputModeArgs isStreaming promptStr,
    buildCommandArgs_agents_eq o isStreaming promptStr settingsValue h⟩

/-- Helper: a member of a joined list is no longer than the join. -/
theorem joinSep_mem_le (sep : String) :
    ∀ (l : List String) (x : String), x ∈ l →
      x.length ≤ (joinSep sep l).length := by
  intro l
  induction l with
  | nil =>
    intro x hx
    simp at hx
  | cons a rest ih =>
    intro x hx
    rcases rest with _ | ⟨b, rest'⟩
    · have hxa : x = a := by simpa using hx
      subst hxa
      simp [joinSep]
    · rcases List.mem_cons.mp hx with h | h
      · subst h
        simp only [joinSep, String.length_append]
        omega
      · have hr := ih x h
        simp only [joinSep, String.length_append]
        omega

/-- C5 counterexample: with a non-empty `Agents` map, an over-limit
argument vector (the agent prompt is 8,001 bytes, Windows limit 8,000),
and an earlier option value equal to the literal string `--agents` (here
the system prompt), the rewrite hits that first occurrence instead of the
agents flag: the temp file receives the string `"--agents"` — not the
agents JSON — and the slot overwritten with `@T` (index 5) is the real
`--agents` flag itself. -/
theorem buildCommand_agents_counterexample :
    buildCommand ceOpts true "" true "T" true (fun _ => none) (fun _ => none) =
      .ok ⟨(buildCommandArgs ceOpts true "" "").set 5 ("@" ++ "T"), ["T"],
        [("T", "--agents")]⟩ ∧
    (buildCommandArgs ceOpts true "" "").getD 5 "" = "--agents" ∧
    ("--agents" : String) ≠ agentsJSON ceAgents := by
  have hp : (⟨List.replicate 8001 'p'⟩ : String).length = 8001 := by
    show (List.replicate 8001 'p').length = 8001
    exact List.length_replicate 8001 'p'
  have h1 : agentsJSON ceAgents =
      "\x7b" ++ ("\"" ++ "big" ++ "\":" ++ renderAgentDef
        { description := "d", prompt := ⟨List.replicate 8001 'p'⟩ }) ++ "\x7d" := rfl
  have h2 : renderAgentDef
      { description := "d", prompt := ⟨List.replicate 8001 'p'⟩ } =
      "\x7b\"description\":\"" ++ "d" ++ "\",\"prompt\":\"" ++
        (⟨List.replicate 8001 'p'⟩ : String) ++ "\"" ++ "" ++ "" ++ "\x7d" := rfl
  have hJ : 8001 ≤ (agentsJSON ceAgents).length := by
    rw [h1, h2]
    simp only [String.length_append, hp]
    omega
  have hAgents : ceOpts.Agents ≠ [] := by
    simp [ceOpts, ceAgents]
  obtain ⟨pre, suf, hsplit⟩ :=
    buildCommandArgs_agents_split ceOpts true "" "" hAgents
  have hAg : ceOpts.Agents = ceAgents := rfl
  rw [hAg] at hsplit
  have hmemJ : agentsJSON ceAgents ∈ buildCommandArgs ceOpts true "" "" := by
    rw [hsplit]
    simp
  have hlen : 8000 < (joinSpace (buildCommandArgs ceOpts true "" "")).length := by
    have hle := joinSep_mem_le " " _ _ hmemJ
    simp only [joinSpace]
    omega
  have hfi : (buildCommandArgs ceOpts true "" "").findIdx (· == "--agents") = 4 := by
    decide
  have hlen11 : (buildCommandArgs ceOpts true "" "").length = 11 := by
    decide
  have hidxlt : (buildCommandArgs ceOpts true "" "").findIdx (· == "--agents") + 1 <
      (buildCommandArgs ceOpts true "" "").length := by
    rw [hfi, hlen11]
    omega
  have hmemA : "--agents" ∈ buildCommandArgs ceOpts true "" "" := by
    rw [hsplit]
    simp
  have hra := replaceAfterAgents_spec "T" _ hmemA hidxlt
  rw [hfi] at hra
  have hg5 : (buildCommandArgs ceOpts true "" "").getD 5 "" = "--agents" := by
    decide
  rw [hg5] at hra
  have hsv : buildSettingsValue ceOpts.Settings ceOpts.Sandbox
      (fun _ => none) (fun _ => none) = .ok "" := rfl
  have hbc : buildCommand ceOpts true "" true "T" true
      (fun _ => none) (fun _ => none) =
      .ok ⟨(buildCommandArgs ceOpts true "" "").set 5 ("@" ++ "T"), ["T"],
        [("T", "--agents")]⟩ := by
    simp only [buildCommand, hsv]
    rw [if_pos ⟨hlen, hAgents⟩, if_pos True.intro, hra]
  refine ⟨hbc, hg5, ?_⟩
  intro heq
  rw [← heq] at hJ
  have h8 : ("--agents" : String).length = 8 := by decide
  omega

/-- C5 (amended): for every options value with a non-empty `Agents` map
(and a successful settings build), if the space-joined argument vector
exceeds the platform limit (8,000 on Windows, 100,000 elsewhere), then
`buildCommand` writes the value following the first occurrence of the
string `"--agents"` in the vector to a temporary file, replaces that value
with `@` followed by the file's path, and records the file for cleanup;
when no earlier option value equals `"--agents"`, that value is the
agents JSON.  Otherwise the argument vector is returned unmodified. -/
theorem buildCommand_agents_temp_file (o : ClaudeAgentOptions)
    (isStreaming : Bool) (promptStr : String) (isWindows : Bool)
    (tempName : String) (readFile : String → Option String)
    (unmarshalMap : String → Option (List (String × String)))
    (settingsValue : String)
    (hsv : buildSettingsValue o.Settings o.Sandbox readFile unmarshalMap =
      .ok settingsValue)
    (hagents : o.Agents ≠ []) :
    (¬ (if isWindows then windowsCmdLengthLimit else nonWindowsCmdLengthLimit) <
        (joinSpace (buildCommandArgs o isStreaming promptStr settingsValue)).length →
      buildCommand o isStreaming promptStr isWindows tempName true readFile
          unmarshalMap =
        .ok ⟨buildCommandArgs o isStreaming promptStr settingsValue, [], []⟩) ∧
    ((if isWindows then windowsCmdLengthLimit else nonWindowsCmdLengthLimit) <
        (joinSpace (buildCommandArgs o isStreaming promptStr settingsValue)).length →
      buildCommand o isStreaming promptStr isWindows tempName true readFile
          unmarshalMap =
        .ok ⟨(buildCommandArgs o isStreaming promptStr settingsValue).set
              ((buildCommandArgs o isStreaming promptStr settingsValue).findIdx
                (· == "--agents") + 1) ("@" ++ tempName),
            [tempName],
            [(tempName,
              (buildCommandArgs o isStreaming promptStr settingsValue).getD
                ((buildCommandArgs o isStreaming promptStr settingsValue).findIdx
                  (· == "--agents") + 1) "")]⟩) ∧
    ("--agents" ∉ preAgentsArgs o settingsValue →
      (buildCommandArgs o isStreaming promptStr settingsValue).getD
        ((buildCommandArgs o isStreaming promptStr settingsValue).findIdx
          (· == "--agents") + 1) "" = agentsJSON o.Agents) := by
  obtain ⟨pre, suf, hsplit⟩ := buildCommandArgs_agents_split o isStreaming
    promptStr settingsValue hagents
  refine ⟨?_, ?_, ?_⟩
  · intro hlim
    simp only [buildCommand, hsv]
    rw [if_neg (fun hand => hlim hand.1)]
  · intro hlim
    have hmem : "--agents" ∈ buildCommandArgs o isStreaming promptStr settingsValue := by
      rw [hsplit]
      simp
    have hfle : (buildCommandArgs o isStreaming promptStr settingsValue).findIdx
        (· == "--agents") ≤ pre.length := by
      rw [hsplit]
      exact findIdx_append_le (· == "--agents") "--agents" (by simp) pre
        (agentsJSON o.Agents :: suf)
    have hlen : pre.length + 2 ≤
        (buildCommandArgs o isStreaming promptStr settingsValue).length := by
      rw [hsplit]
      simp [List.length_append]
    have hidx : (buildCommandArgs o isStreaming promptStr settingsValue).findIdx
        (· == "--agents") + 1 <
        (buildCommandArgs o isStreaming promptStr settingsValue).length := by
      omega
    simp only [buildCommand, hsv]
    rw [if_pos ⟨hlim, hagents⟩, if_pos True.intro,
      replaceAfterAgents_spec tempName _ hmem hidx]
  · intro hnotin
    have heq := buildCommandArgs_agents_eq o isStreaming promptStr
      settingsValue hagents
    have hfi : (buildCommandArgs o isStreaming promptStr settingsValue).findIdx
        (· == "--agents") = (preAgentsArgs o settingsValue).length := by
      rw [heq]
      refine findIdx_append_eq (· == "--agents") "--agents" (by simp)
        (preAgentsArgs o settingsValue) _ ?_
      intro y hy
      have hne : y ≠ "--agents" := fun hc => hnotin (hc ▸ hy)
      simp [hne]
    rw [hfi, heq]
    exact getD_append_succ "" "--agents" (agentsJSON o.Agents) _ _

/-- C5 witness: a small agents map whose argument vector is far below the
limit comes back unmodified, with no temp file. -/
theorem buildCommand_agents_temp_file_witness :
    buildCommand { Agents := [("a", { description := "d", prompt := "p" })] }
        true "" true "T" true (fun _ => none) (fun _ => none) =
      .ok ⟨buildCommandArgs
        { Agents := [("a", { description := "d", prompt := "p" })] }
        true "" "", [], []⟩ := by
  exact (buildCommand_agents_temp_file
    { Agents := [("a", { description := "d", prompt := "p" })] }
    true "" true "T" (fun _ => none) (fun _ => none) "" rfl (by decide)).1
    (by decide)

end ClaudeSDK
